import Mathlib

/-!
# Verification of the FollowFlee evolutionary-game model

A shallow embedding of `src/plugin.cpp` / `src/plugin.h` (the Evoplex
`FollowFlee` model plugin).  Nodes of the fixed-degree graph are identified by
their integer ids; the three mutable node attributes (`strategy`, `actions`,
`score`) live in an attribute map `Nat → NodeA`; the member containers
`m_agents` (a vector of nodes) and `m_emptyCells` (a map keyed by id) become
lists of ids.  The host's pseudo-random collaborator is modelled as a stream
of natural numbers consumed one draw at a time; fatal aborts (`qFatal`)
become `none` in an `Option` result.
-/

namespace FollowFlee

/-- The three per-node attributes (enum `NodeAttrs { Strategy, Actions, Score }`):
`strategy` (0 = empty, 1 = cooperator, 2 = defector), `actions` (8-bit genome),
`score` (signed accumulator). -/
structure NodeA where
  strategy : Int
  actions : Nat
  score : Int
deriving Repr, DecidableEq

/-- The per-node attribute store (host's node attribute get/set). -/
def Attrs : Type := Nat → NodeA

/-- `FreeCell` struct: an (id, score) scratch pair. -/
structure FreeCell where
  id : Nat
  score : Int
deriving Repr, DecidableEq

/-- The `Horizon` struct holding one agent's neighbourhood state. -/
structure Horizon where
  cooperators : List Nat
  defectors : List Nat
  freeCells : List FreeCell
deriving Repr, DecidableEq

/-- The replacement modes (enum `RepMode`). -/
inductive RepMode where
  | SimpleBD
  | NeighbourBD
  | Evolutionary
deriving Repr, DecidableEq

/-- The host PRG's `uniform(max)`: one draw from the stream, an integer in
`[0, max]`. -/
def uniformN (max : Nat) (r : List Nat) : Nat × List Nat :=
  (r.headD 0 % (max + 1), r.tail)

/-- The host PRG's `uniform(-n, n)`: one draw from the stream, an integer in
the closed interval `[-n, n]`. -/
def uniformI (n : Nat) (r : List Nat) : Int × List Nat :=
  (((r.headD 0 : Int) % (2 * n + 1)) - n, r.tail)

/-- `playGame(strA, strB)`: the prisoner's-dilemma payoff, dispatching on
`(strA-1)*2 + (strB-1)`; the `default` branch of the `switch` is `qFatal`,
modelled as `none`. -/
def playGame (strA strB : Int) : Option Int :=
  let k := (strA - 1) * 2 + (strB - 1)
  if k = 0 then some 3        -- CC : Reward for mutual cooperation
  else if k = 1 then some 0   -- CD : Sucker's payoff
  else if k = 2 then some 5   -- DC : Temptation to defect
  else if k = 3 then some 1   -- DD : Punishment for mutual defection
  else none                   -- qFatal: invalid strategies

/-- `repModeFromString`: maps the configuration string to a `RepMode`;
any other string is `qFatal` (`none`). -/
def repModeFromString (s : String) : Option RepMode :=
  if s = "simpleBD" then some RepMode.SimpleBD
  else if s = "neighbourBD" then some RepMode.NeighbourBD
  else none

/-- `init()`: reads `repMode` (fatal if unrecognized, via
`repModeFromString`), `repRate` with default `-1.0` and `stepsPerGen` with
default `-1` (the defaults are used when the attribute is absent), and
returns `m_repRate > -1 && m_stepsPerGen > -1`. -/
def init (repMode : String) (repRate : Option ℚ) (stepsPerGen : Option Int) :
    Option Bool := do
  let _ ← repModeFromString repMode
  let rr : ℚ := repRate.getD (-1)
  let spg : Int := stepsPerGen.getD (-1)
  some (decide (rr > -1) && decide (spg > -1))

/-- `copyAttrs(src, tgt)`: copies all three attributes of node `src` onto
node `tgt`. -/
def copyAttrs (attrs : Attrs) (src tgt : Nat) : Attrs :=
  fun j => if j = tgt then attrs src else attrs j

/-- `clearAttrs(agent)`: sets all three attributes of the node to zero. -/
def clearAttrs (attrs : Attrs) (i : Nat) : Attrs :=
  fun j => if j = i then ⟨0, 0, 0⟩ else attrs j

/-- Write a node's score attribute (a single `setAttr(Score, v)`). -/
def setScore (attrs : Attrs) (i : Nat) (v : Int) : Attrs :=
  fun j => if j = i then { attrs j with score := v } else attrs j

/-- `stayStill(freeCells, numNeighbours)`: the center cell (index 0) sums
zero and every other free cell subtracts `numNeighbours`. -/
def stayStill (freeCells : List FreeCell) (numNeighbours : Int) : List FreeCell :=
  match freeCells with
  | [] => []
  | c :: rest => c :: rest.map (fun fc => { fc with score := fc.score - numNeighbours })

/-- `follow(freeCells, neighbour)`: every free cell that is an out-neighbour
of `neighbour` sums one, the others sum zero. -/
def follow (adj : Nat → List Nat) (freeCells : List FreeCell) (neighbour : Nat) :
    List FreeCell :=
  freeCells.map (fun fc =>
    if fc.id ∈ adj neighbour then { fc with score := fc.score + 1 } else fc)

/-- `flee(freeCells, neighbour)`: every free cell that is an out-neighbour of
`neighbour` sums zero, the others sum one. -/
def flee (adj : Nat → List Nat) (freeCells : List FreeCell) (neighbour : Nat) :
    List FreeCell :=
  freeCells.map (fun fc =>
    if fc.id ∈ adj neighbour then fc else { fc with score := fc.score + 1 })

/-- `random(freeCells, numNeighbours)`: every free cell sums one draw of
`prg()->uniform(-numNeighbours, numNeighbours)`; the draws are consumed from
the stream in free-cell order. -/
def random (freeCells : List FreeCell) (numNeighbours : Nat) (r : List Nat) :
    List FreeCell × List Nat :=
  match freeCells with
  | [] => ([], r)
  | fc :: rest =>
    let d := (uniformI numNeighbours r).1
    let res := random rest numNeighbours (uniformI numNeighbours r).2
    ({ fc with score := fc.score + d } :: res.1, res.2)

/-- `evalFreeCells(freeCells, neighbours, action)`: dispatches the 2-bit
sub-policy code; the `default` branch of the `switch` is `qFatal` (`none`). -/
def evalFreeCells (adj : Nat → List Nat) (freeCells : List FreeCell)
    (neighbours : List Nat) (action : Nat) (r : List Nat) :
    Option (List FreeCell × List Nat) :=
  if action = 0 then some (stayStill freeCells (neighbours.length : Int), r)
  else if action = 1 then some (neighbours.foldl (follow adj) freeCells, r)
  else if action = 2 then some (neighbours.foldl (flee adj) freeCells, r)
  else if action = 3 then some (random freeCells neighbours.length r)
  else none

/-- The successive draws of `uniform(-n, n)` taken from the stream `r`:
`draws n r k` lists the first `k` of them, the `i`-th consuming the `i`-th
stream element. -/
def draws (n : Nat) (r : List Nat) : Nat → List Int
  | 0 => []
  | k + 1 => (uniformI n r).1 :: draws n r.tail k

/-- One iteration of the neighbour loop in `updateScoreAndHorizon`: an empty
neighbour is appended to `freeCells` with score 0; an occupied one
contributes `playGame(strA, strB)` to the accumulated score and is appended
to `cooperators` (strategy 1) or `defectors` (any other non-zero
strategy). -/
def scanNeighbour (attrs : Attrs) (strA : Int) (acc : Horizon × Int) (nb : Nat) :
    Option (Horizon × Int) :=
  if (attrs nb).strategy = 0 then
    some ({ acc.1 with freeCells := acc.1.freeCells ++ [⟨nb, 0⟩] }, acc.2)
  else
    (playGame strA (attrs nb).strategy).bind fun p =>
      if (attrs nb).strategy = 1 then
        some ({ acc.1 with cooperators := acc.1.cooperators ++ [nb] }, acc.2 + p)
      else
        some ({ acc.1 with defectors := acc.1.defectors ++ [nb] }, acc.2 + p)

/-- `updateScoreAndHorizon(agent, horizon)`: clears the horizon, seeds
`freeCells` with the agent's own cell (score 0), scans the out-neighbours
once via `scanNeighbour`, and finally writes the accumulated score back to
the agent's `score` attribute. -/
def updateScoreAndHorizon (adj : Nat → List Nat) (attrs : Attrs) (agentId : Nat) :
    Option (Horizon × Attrs) := do
  let strA := (attrs agentId).strategy
  let acc0 : Horizon × Int := (⟨[], [], [⟨agentId, 0⟩]⟩, (attrs agentId).score)
  let acc ← (adj agentId).foldlM (scanNeighbour attrs strA) acc0
  some (acc.1, setScore attrs agentId acc.2)

/-- `m_emptyCells.insert({id, node})`: a map insert, a no-op when the key is
already present. -/
def insertCell (empty : List Nat) (i : Nat) : List Nat :=
  if i ∈ empty then empty else empty ++ [i]

/-- `move(agent, targetId)`: when the target differs from the agent's cell,
erase the target from the empty-cell map, copy the agent's attributes onto
it, clear the old cell, insert the old cell into the empty-cell map, and
rebind the agent handle to the target. -/
def move (attrs : Attrs) (empty : List Nat) (agentId targetId : Nat) :
    Attrs × List Nat × Nat :=
  if agentId = targetId then (attrs, empty, agentId)
  else
    let empty1 := empty.erase targetId
    let attrs1 := copyAttrs attrs agentId targetId
    let attrs2 := clearAttrs attrs1 agentId
    (attrs2, insertCell empty1 agentId, targetId)

/-- Bit `i` of the 8-bit `actions` genome (`std::bitset<8>` indexing, bit 0
the least significant). -/
def bit (a i : Nat) : Nat := if a.testBit i then 1 else 0

/-- The free cells of maximal score, in `freeCells` order (the
highest-score selection loop of `updatePosition`, starting from
`INT32_MIN`). -/
def highestScoreIds (fcs : List FreeCell) : List Nat :=
  (fcs.foldl
    (fun (acc : Int × List Nat) fc =>
      if fc.score > acc.1 then (fc.score, [fc.id])
      else if fc.score = acc.1 then (acc.1, acc.2 ++ [fc.id])
      else acc)
    (-(2 ^ 31 : Int), [])).2

/-- The tail of `updatePosition` after the free cells have been scored:
pick the free cells of maximal score, break a tie by one uniform draw, and
`move` there. -/
def pickAndMove (attrs : Attrs) (empty : List Nat) (agentId : Nat)
    (ev : Option (List FreeCell × List Nat)) :
    Option (Attrs × List Nat × Nat × List Nat) :=
  match ev with
  | none => none
  | some (fcs, r1) =>
    let ids := highestScoreIds fcs
    if ids = [] then none  -- Q_ASSERT(highestScoreIds.size() > 0)
    else if ids.length = 1 then
      let m := move attrs empty agentId (ids.headD 0)
      some (m.1, m.2.1, m.2.2, r1)
    else
      let k := (uniformN (ids.length - 1) r1).1
      let m := move attrs empty agentId (ids.getD k 0)
      some (m.1, m.2.1, m.2.2, (uniformN (ids.length - 1) r1).2)

/-- `updatePosition(agent, horizon)`: no-op when `freeCells` has size 1;
with no occupied neighbour, move to a uniformly random free cell without
consulting the genome; otherwise decode the 8-bit genome by neighbourhood
case (only cooperators: bits [7:6]; only defectors: bits [5:4]; mixed: bits
[3:2] against cooperators and bits [1:0] against defectors, compounding),
then pick the best-scored free cell. -/
def updatePosition (adj : Nat → List Nat) (attrs : Attrs) (empty : List Nat)
    (agentId : Nat) (h : Horizon) (r : List Nat) :
    Option (Attrs × List Nat × Nat × List Nat) :=
  if h.freeCells.length = 0 then none  -- Q_ASSERT_X: freeCells is never empty
  else if h.freeCells.length = 1 then some (attrs, empty, agentId, r)
  else
    let numNeighbours : Int :=
      ((adj agentId).length : Int) - ((h.freeCells.length : Int) - 1)
    if numNeighbours = 0 then
      let k := (uniformN (h.freeCells.length - 1) r).1
      let m := move attrs empty agentId ((h.freeCells.getD k ⟨0, 0⟩).id)
      some (m.1, m.2.1, m.2.2, (uniformN (h.freeCells.length - 1) r).2)
    else
      let actions := (attrs agentId).actions
      if numNeighbours = (h.cooperators.length : Int) then
        pickAndMove attrs empty agentId
          (evalFreeCells adj h.freeCells h.cooperators
            (bit actions 7 * 2 + bit actions 6) r)
      else if numNeighbours = (h.defectors.length : Int) then
        pickAndMove attrs empty agentId
          (evalFreeCells adj h.freeCells h.defectors
            (bit actions 5 * 2 + bit actions 4) r)
      else
        pickAndMove attrs empty agentId
          ((evalFreeCells adj h.freeCells h.cooperators
              (bit actions 3 * 2 + bit actions 2) r).bind
            (fun fr => evalFreeCells adj fr.1 h.defectors
              (bit actions 1 * 2 + bit actions 0) fr.2))

/-- `selectEmptyCell()`: one uniform positional draw from the empty-cell
map; undefined behaviour (modelled fatal) on an empty map. -/
def selectEmptyCell (empty : List Nat) (r : List Nat) : Option (Nat × List Nat) :=
  if empty.isEmpty then none
  else some (empty.getD (r.headD 0 % empty.length) 0, r.tail)

/-- The vacate phase shared by both replacement strategies: for
`i = 0 .. k-1`, insert the node at position `last - i` of the agent vector
(`last = size - 1`) into the empty-cell map. -/
def vacateWorst (k : Nat) (agents empty : List Nat) : List Nat :=
  (List.range k).foldl
    (fun e i => insertCell e (agents.getD (agents.length - 1 - i) 0)) empty

/-- `sortAgentsByScore(agents)`: sorts its by-value copy of the agent vector
in descending score order and returns that copy; the caller's vector is not
touched (the C++ parameter is passed by value, so the sorted copy is
discarded at return). -/
def sortAgentsByScore (attrs : Attrs) (agents : List Nat) : List Nat :=
  agents.insertionSort (fun i j => (attrs j).score < (attrs i).score)

/-- `m_agents.erase(m_agents.end()-2*k, m_agents.end()-k)`: the "fix
containers" window erase, removing the `k` entries that precede the `k`
appended clones. -/
def eraseWindow (agents : List Nat) (k : Nat) : List Nat :=
  agents.take (agents.length - 2 * k) ++ agents.drop (agents.length - k)

/-- The clone loop of `simpleBD`: for `i = 0 .. k-1`, choose a random empty
cell, remove it from the empty-cell map, append it to the agent vector, and
copy the attributes of `m_agents.at(i)` onto it. -/
def cloneLoopS : Nat → Nat → List Nat → Attrs → List Nat → List Nat →
    Option (List Nat × Attrs × List Nat × List Nat)
  | 0, _, agents, attrs, empty, r => some (agents, attrs, empty, r)
  | j + 1, i, agents, attrs, empty, r =>
    match selectEmptyCell empty r with
    | none => none
    | some (tgt, r1) =>
      let empty1 := empty.erase tgt
      let agents1 := agents ++ [tgt]
      let attrs1 := copyAttrs attrs (agents1.getD i 0) tgt
      cloneLoopS j (i + 1) agents1 attrs1 empty1 r1

/-- `simpleBD(agentsToReplace)`: sort (a discarded by-value copy), make the
worst-positioned `k` cells available, clone the first-positioned `k` agents
onto random empty cells, then fix the containers (window erase and clearing
of all remaining empty cells). -/
def simpleBD (k : Nat) (agents : List Nat) (attrs : Attrs) (empty : List Nat)
    (r : List Nat) : Option (List Nat × Attrs × List Nat × List Nat) :=
  let _sorted := sortAgentsByScore attrs agents
  let empty1 := vacateWorst k agents empty
  match cloneLoopS k 0 agents attrs empty1 r with
  | none => none
  | some (agents2, attrs2, empty2, r2) =>
    let agents3 := eraseWindow agents2 k
    let attrs3 := empty2.foldl clearAttrs attrs2
    some (agents3, attrs3, empty2, r2)

/-- The clone loop of `neighbourBD`: for `i = 0 .. k-1`, the parent
`m_agents.at(i)` first scans its out-neighbours for cells with strategy 0
and places the clone on one of them uniformly at random; only with no empty
neighbour does it fall back to a global uniform empty cell. -/
def cloneLoopN (adj : Nat → List Nat) : Nat → Nat → List Nat → Attrs → List Nat →
    List Nat → Option (List Nat × Attrs × List Nat × List Nat)
  | 0, _, agents, attrs, empty, r => some (agents, attrs, empty, r)
  | j + 1, i, agents, attrs, empty, r =>
    let parent := agents.getD i 0
    let freeCells := (adj parent).filter (fun nb => (attrs nb).strategy = 0)
    let sel : Option (Nat × List Nat) :=
      if freeCells.isEmpty then selectEmptyCell empty r
      else some (freeCells.getD (r.headD 0 % freeCells.length) 0, r.tail)
    match sel with
    | none => none
    | some (tgt, r1) =>
      let empty1 := empty.erase tgt
      let agents1 := agents ++ [tgt]
      let attrs1 := copyAttrs attrs parent tgt
      cloneLoopN adj j (i + 1) agents1 attrs1 empty1 r1

/-- `neighbourBD(agentsToReplace)`: same as `simpleBD` but the clones are
placed around their parents when possible. -/
def neighbourBD (adj : Nat → List Nat) (k : Nat) (agents : List Nat)
    (attrs : Attrs) (empty : List Nat) (r : List Nat) :
    Option (List Nat × Attrs × List Nat × List Nat) :=
  let _sorted := sortAgentsByScore attrs agents
  let empty1 := vacateWorst k agents empty
  match cloneLoopN adj k 0 agents attrs empty1 r with
  | none => none
  | some (agents2, attrs2, empty2, r2) =>
    let agents3 := eraseWindow agents2 k
    let attrs3 := empty2.foldl clearAttrs attrs2
    some (agents3, attrs3, empty2, r2)

/-- The whole mutable state owned by the model: the attribute store, the
agent vector `m_agents` and the empty-cell map `m_emptyCells`. -/
structure St where
  attrs : Attrs
  agents : List Nat
  empty : List Nat

/-- The id-ascending sort of the agent vector performed at the top of
`algorithmStep` ("it's important to ensure the same initial condition
before shuffling"). -/
def sortById (agents : List Nat) : List Nat :=
  agents.insertionSort (· ≤ ·)

/-- Modelled from the spec: `Utils::shuffle(m_agents, prg())` is host
(Evoplex framework) code, not part of this repository's sources; per the
spec's external-interface contract it is the pseudo-random collaborator's
"shuffle-in-place of a sequence", modelled as the uniform shuffle that
repeatedly extracts a uniformly drawn remaining element, one stream draw
per element. -/
def shuffle (xs : List Nat) (r : List Nat) : List Nat × List Nat :=
  if h : xs = [] then ([], r)
  else
    let k := r.headD 0 % xs.length
    let x := xs.getD k 0
    let res := shuffle (xs.eraseIdx k) r.tail
    (x :: res.1, res.2)
termination_by xs.length
decreasing_by
  have hl : 0 < xs.length := List.length_pos.mpr h
  have hk : r.head?.getD 0 % xs.length < xs.length := Nat.mod_lt _ hl
  simp [List.length_eraseIdx, hk]
  omega

/-- The sub-step loop of `algorithmStep`: one agent takes `stepsPerGen`
scan-then-move steps; the agent handle follows the relocations. -/
def subSteps (adj : Nat → List Nat) : Nat → Attrs → List Nat → Nat → List Nat →
    Option (Attrs × List Nat × Nat × List Nat)
  | 0, attrs, empty, agentId, r => some (attrs, empty, agentId, r)
  | s + 1, attrs, empty, agentId, r =>
    match updateScoreAndHorizon adj attrs agentId with
    | none => none
    | some (h, attrs1) =>
      match updatePosition adj attrs1 empty agentId h r with
      | none => none
      | some (attrs2, empty2, agentId2, r2) => subSteps adj s attrs2 empty2 agentId2 r2

/-- The per-agent loop of `algorithmStep`: for each agent in (shuffled)
order, reset its score to 0, then run its sub-steps; the vector entry is
replaced by the agent's final cell. -/
def agentsLoop (adj : Nat → List Nat) (spg : Nat) :
    List Nat → Attrs → List Nat → List Nat →
    Option (List Nat × Attrs × List Nat × List Nat)
  | [], attrs, empty, r => some ([], attrs, empty, r)
  | a :: rest, attrs, empty, r =>
    match subSteps adj spg (setScore attrs a 0) empty a r with
    | none => none
    | some (attrs1, empty1, a1, r1) =>
      match agentsLoop adj spg rest attrs1 empty1 r1 with
      | none => none
      | some (rest1, attrs2, empty2, r2) => some (a1 :: rest1, attrs2, empty2, r2)

/-- `algorithmStep()`: one generation — no-op on an empty population; sort
agents by id, shuffle, run every agent's sub-steps, then run the configured
replacement strategy when `agentsToReplace = floor(size * repRate)` is
positive (`qFatal` on an invalid mode). -/
def algorithmStep (adj : Nat → List Nat) (spg : Nat) (repRate : ℚ)
    (repMode : RepMode) (st : St) (r : List Nat) : Option (St × List Nat) :=
  if st.agents = [] then some (st, r)
  else
    let sh := shuffle (sortById st.agents) r
    match agentsLoop adj spg sh.1 st.attrs st.empty sh.2 with
    | none => none
    | some (agents1, attrs1, empty1, r1) =>
      let agentsToReplace := (⌊(agents1.length : ℚ) * repRate⌋).toNat
      if agentsToReplace > 0 then
        match repMode with
        | RepMode.SimpleBD =>
          match simpleBD agentsToReplace agents1 attrs1 empty1 r1 with
          | none => none
          | some (ag, at2, em, r2) => some (⟨at2, ag, em⟩, r2)
        | RepMode.NeighbourBD =>
          match neighbourBD adj agentsToReplace agents1 attrs1 empty1 r1 with
          | none => none
          | some (ag, at2, em, r2) => some (⟨at2, ag, em⟩, r2)
        | RepMode.Evolutionary => none
      else some (⟨attrs1, agents1, empty1⟩, r1)

/-- `N` consecutive generations (the external scheduler calling
`algorithmStep` in a loop). -/
def runGens (adj : Nat → List Nat) (spg : Nat) (repRate : ℚ)
    (repMode : RepMode) : Nat → St → List Nat → Option (St × List Nat)
  | 0, st, r => some (st, r)
  | n + 1, st, r =>
    match algorithmStep adj spg repRate repMode st r with
    | none => none
    | some (st1, r1) => runGens adj spg repRate repMode n st1 r1

/-- The 4-ring graph used by the concrete instantiations: node `i` has
out-neighbours `i+1` and `i-1` modulo 4. -/
def exAdj : Nat → List Nat :=
  fun i => [[1, 3], [2, 0], [3, 1], [0, 2]].getD i []

/-- A concrete attribute store: four cooperators with scores 4, 6, 8, 10 in
node order. -/
def exAttrs : Attrs := fun i =>
  if i = 0 then ⟨1, 0, 4⟩
  else if i = 1 then ⟨1, 0, 6⟩
  else if i = 2 then ⟨1, 0, 8⟩
  else if i = 3 then ⟨1, 0, 10⟩
  else ⟨0, 0, 0⟩

/-- The same four cooperators with the scores assigned in the opposite
order: 10, 8, 6, 4 in node order. -/
def exAttrs2 : Attrs := fun i =>
  if i = 0 then ⟨1, 0, 10⟩
  else if i = 1 then ⟨1, 0, 8⟩
  else if i = 2 then ⟨1, 0, 6⟩
  else if i = 3 then ⟨1, 0, 4⟩
  else ⟨0, 0, 0⟩

/-- A concrete attribute store with an empty cell: nodes 0, 1, 2 are
cooperators (score 0) and node 3 is empty. -/
def exAttrsB : Attrs := fun i =>
  if i = 0 then ⟨1, 5, 0⟩
  else if i = 1 then ⟨1, 0, 0⟩
  else if i = 2 then ⟨1, 0, 0⟩
  else ⟨0, 0, 0⟩

/-- The partition invariant: the agent vector and the empty-cell map are
duplicate-free, disjoint, and together cover exactly the node set; agents
carry a positive strategy, empty cells strategy 0, and every strategy is one
of 0, 1, 2. -/
structure Inv (allNodes : List Nat) (attrs : Attrs) (agents empty : List Nat) :
    Prop where
  agents_nodup : agents.Nodup
  empty_nodup : empty.Nodup
  disj : ∀ x, ¬(x ∈ agents ∧ x ∈ empty)
  union : ∀ x, x ∈ allNodes ↔ (x ∈ agents ∨ x ∈ empty)
  strat_pos : ∀ x ∈ agents, 0 < (attrs x).strategy
  strat_zero : ∀ x ∈ empty, (attrs x).strategy = 0
  strat_range : ∀ x, (attrs x).strategy = 0 ∨ (attrs x).strategy = 1 ∨
    (attrs x).strategy = 2

end FollowFlee

namespace FollowFlee

/-! ## Characterizations of the four sub-policies (claim C7) -/

theorem map_score_add_zero (fcs : List FreeCell) :
    fcs.map (fun fc => { fc with score := fc.score + 0 }) = fcs := by
  induction fcs with
  | nil => rfl
  | cons a l ih =>
    simp only [List.map_cons, ih]
    cases a
    simp

theorem follow_foldl (adj : Nat → List Nat) :
    ∀ (nbs : List Nat) (fcs : List FreeCell),
      nbs.foldl (follow adj) fcs
        = fcs.map (fun fc =>
            { fc with score :=
                fc.score + (nbs.countP (fun n => decide (fc.id ∈ adj n)) : Int) }) := by
  intro nbs
  induction nbs with
  | nil =>
    intro fcs
    simp only [List.foldl_nil, List.countP_nil, Nat.cast_zero]
    exact (map_score_add_zero fcs).symm
  | cons n nbs ih =>
    intro fcs
    simp only [List.foldl_cons]
    rw [ih (follow adj fcs n)]
    unfold follow
    rw [List.map_map]
    apply List.map_congr_left
    intro a _
    by_cases hm : a.id ∈ adj n
    · have hd : decide (a.id ∈ adj n) = true := decide_eq_true hm
      simp only [Function.comp_apply, if_pos hm, List.countP_cons, hd]
      simp only [FreeCell.mk.injEq, true_and, if_true]
      push_cast
      ring
    · have hd : decide (a.id ∈ adj n) = false := decide_eq_false hm
      simp only [Function.comp_apply, if_neg hm, List.countP_cons, hd]
      simp

theorem flee_foldl (adj : Nat → List Nat) :
    ∀ (nbs : List Nat) (fcs : List FreeCell),
      nbs.foldl (flee adj) fcs
        = fcs.map (fun fc =>
            { fc with score :=
                fc.score + (nbs.countP (fun n => decide (fc.id ∉ adj n)) : Int) }) := by
  intro nbs
  induction nbs with
  | nil =>
    intro fcs
    simp only [List.foldl_nil, List.countP_nil, Nat.cast_zero]
    exact (map_score_add_zero fcs).symm
  | cons n nbs ih =>
    intro fcs
    simp only [List.foldl_cons]
    rw [ih (flee adj fcs n)]
    unfold flee
    rw [List.map_map]
    apply List.map_congr_left
    intro a _
    by_cases hm : a.id ∈ adj n
    · have hd : decide (a.id ∈ adj n) = true := decide_eq_true hm
      simp only [Function.comp_apply, if_pos hm, List.countP_cons, decide_not, hd]
      simp
    · have hd : decide (a.id ∈ adj n) = false := decide_eq_false hm
      simp only [Function.comp_apply, if_neg hm, List.countP_cons, decide_not, hd]
      simp only [FreeCell.mk.injEq, true_and, Bool.not_false, if_true]
      push_cast
      ring

theorem random_eq_zipWith_draws :
    ∀ (fcs : List FreeCell) (n : Nat) (r : List Nat),
      random fcs n r
        = (fcs.zipWith (fun fc d => { fc with score := fc.score + d })
            (draws n r fcs.length),
           r.drop fcs.length) := by
  intro fcs
  induction fcs with
  | nil => intro n r; rfl
  | cons fc rest ih =>
    intro n r
    have hu : (uniformI n r).2 = r.tail := rfl
    show ({ fc with score := fc.score + (uniformI n r).1 }
            :: (random rest n (uniformI n r).2).1,
          (random rest n (uniformI n r).2).2) = _
    rw [hu, ih n r.tail]
    simp only [draws, List.length_cons, List.zipWith_cons_cons, Prod.mk.injEq]
    refine ⟨trivial, ?_⟩
    rw [← List.drop_one, List.drop_drop]
    congr 1
    omega

theorem draws_mem_bounds (n : Nat) :
    ∀ (k : Nat) (r : List Nat) (d : Int), d ∈ draws n r k → -n ≤ d ∧ d ≤ n := by
  intro k
  induction k with
  | zero => intro r d hd; simp [draws] at hd
  | succ k ih =>
    intro r d hd
    simp only [draws, List.mem_cons] at hd
    rcases hd with h | h
    · subst h
      unfold uniformI
      constructor
      · have h0 : (0 : Int) ≤ (r.headD 0 : Int) % (2 * n + 1) :=
          Int.emod_nonneg _ (by positivity)
        omega
      · have h1 : (r.headD 0 : Int) % (2 * n + 1) < 2 * n + 1 :=
          Int.emod_lt_of_pos _ (by positivity)
        omega
    · exact ih r.tail d h

theorem evalFreeCells_none_iff (adj : Nat → List Nat) (fcs : List FreeCell)
    (nbs : List Nat) (c : Nat) (r : List Nat) :
    evalFreeCells adj fcs nbs c r = none ↔ 4 ≤ c := by
  unfold evalFreeCells
  by_cases h0 : c = 0
  · simp [h0]
  · by_cases h1 : c = 1
    · simp [h0, h1]
    · by_cases h2 : c = 2
      · simp [h0, h1, h2]
      · by_cases h3 : c = 3
        · simp [h0, h1, h2, h3]
        · simp only [h0, h1, h2, h3, if_false]
          constructor
          · intro _; omega
          · intro _; trivial

/-- **C7.** The four 2-bit sub-policy codes dispatched by `evalFreeCells`
act on the free-cell score array as the claim states: code 0 ("stay")
subtracts the class size from every free cell except the self cell at index
0; code 1 ("follow") adds, to each free cell, one point per class member
having that cell among its out-neighbours; code 2 ("flee") adds one point
per class member NOT having that cell among its out-neighbours; code 3
("random") adds to every free cell (the self cell included) one independent
draw of `uniform(-numNeighbours, numNeighbours)` consumed from the stream in
free-cell order, each draw lying in `[-numNeighbours, numNeighbours]`; and
any other code aborts fatally (`evalFreeCells` is `none` exactly on codes
`≥ 4`, the codes a 2-bit value can never take). -/
theorem evalFreeCells_subpolicies (adj : Nat → List Nat) :
    (∀ (c : FreeCell) (rest : List FreeCell) (nbs : List Nat) (r : List Nat),
        evalFreeCells adj (c :: rest) nbs 0 r
          = some (c :: rest.map (fun fc =>
              { fc with score := fc.score - (nbs.length : Int) }), r)) ∧
    (∀ (fcs : List FreeCell) (nbs : List Nat) (r : List Nat),
        evalFreeCells adj fcs nbs 1 r
          = some (fcs.map (fun fc =>
              { fc with score := fc.score
                  + (nbs.countP (fun n => decide (fc.id ∈ adj n)) : Int) }), r)) ∧
    (∀ (fcs : List FreeCell) (nbs : List Nat) (r : List Nat),
        evalFreeCells adj fcs nbs 2 r
          = some (fcs.map (fun fc =>
              { fc with score := fc.score
                  + (nbs.countP (fun n => decide (fc.id ∉ adj n)) : Int) }), r)) ∧
    (∀ (fcs : List FreeCell) (nbs : List Nat) (r : List Nat),
        evalFreeCells adj fcs nbs 3 r
          = some (fcs.zipWith (fun fc d => { fc with score := fc.score + d })
              (draws nbs.length r fcs.length),
             r.drop fcs.length)) ∧
    (∀ (n k : Nat) (r : List Nat) (d : Int),
        d ∈ draws n r k → -n ≤ d ∧ d ≤ n) ∧
    (∀ (fcs : List FreeCell) (nbs : List Nat) (c : Nat) (r : List Nat),
        evalFreeCells adj fcs nbs c r = none ↔ 4 ≤ c) := by
  refine ⟨?_, ?_, ?_, ?_, ?_, ?_⟩
  · intro c rest nbs r
    simp [evalFreeCells, stayStill]
  · intro fcs nbs r
    simp [evalFreeCells, follow_foldl]
  · intro fcs nbs r
    simp [evalFreeCells, flee_foldl]
  · intro fcs nbs r
    simp [evalFreeCells, random_eq_zipWith_draws]
  · intro n k r d hd
    exact draws_mem_bounds n k r d hd
  · intro fcs nbs c r
    exact evalFreeCells_none_iff adj fcs nbs c r

/-! ## Claim C9: the horizon scan -/

theorem playGame_isSome (strA strB : Int) (hA : strA = 1 ∨ strA = 2)
    (hB : strB = 1 ∨ strB = 2) : ∃ p, playGame strA strB = some p := by
  rcases hA with h | h <;> rcases hB with h2 | h2 <;> subst h <;> subst h2
  · exact ⟨3, rfl⟩
  · exact ⟨0, rfl⟩
  · exact ⟨5, rfl⟩
  · exact ⟨1, rfl⟩

theorem scanNeighbour_foldlM (attrs : Attrs) (strA : Int)
    (hA : strA = 1 ∨ strA = 2) :
    ∀ (nbs : List Nat),
      (∀ nb ∈ nbs, (attrs nb).strategy = 0 ∨ (attrs nb).strategy = 1 ∨
        (attrs nb).strategy = 2) →
      ∀ (acc : Horizon × Int),
      List.foldlM (scanNeighbour attrs strA) acc nbs
        = some
          ({ cooperators := acc.1.cooperators
                ++ nbs.filter (fun nb => (attrs nb).strategy = 1),
             defectors := acc.1.defectors
                ++ nbs.filter (fun nb => (attrs nb).strategy = 2),
             freeCells := acc.1.freeCells
                ++ (nbs.filter (fun nb => (attrs nb).strategy = 0)).map
                    (fun nb => ⟨nb, 0⟩) },
           acc.2 + ((nbs.filter (fun nb => ¬ (attrs nb).strategy = 0)).map
               (fun nb => (playGame strA (attrs nb).strategy).getD 0)).sum) := by
  intro nbs
  induction nbs with
  | nil =>
    intro _ acc
    simp [List.foldlM_nil]
  | cons nb nbs ih =>
    intro hs acc
    have hnb := hs nb (List.mem_cons_self nb nbs)
    have hrest : ∀ x ∈ nbs, (attrs x).strategy = 0 ∨ (attrs x).strategy = 1 ∨
        (attrs x).strategy = 2 := fun x hx => hs x (List.mem_cons_of_mem nb hx)
    rw [List.foldlM_cons]
    rcases hnb with h0 | h1 | h2
    · have hstep : scanNeighbour attrs strA acc nb
          = some ({ acc.1 with freeCells := acc.1.freeCells ++ [⟨nb, 0⟩] }, acc.2) := by
        unfold scanNeighbour
        rw [if_pos h0]
      rw [hstep]
      simp only [Option.bind_eq_bind', Option.some_bind']
      rw [ih hrest _]
      simp [List.filter_cons, h0, List.append_assoc]
    · obtain ⟨p, hp⟩ := playGame_isSome strA (attrs nb).strategy hA (Or.inl h1)
      have hgd : (playGame strA (attrs nb).strategy).getD 0 = p := by rw [hp]; rfl
      have hstep : scanNeighbour attrs strA acc nb
          = some ({ acc.1 with cooperators := acc.1.cooperators ++ [nb] }, acc.2 + p) := by
        unfold scanNeighbour
        rw [if_neg (by rw [h1]; norm_num), hp]
        simp only [Option.bind_eq_bind', Option.some_bind']
        rw [if_pos h1]
      rw [hstep]
      simp only [Option.bind_eq_bind', Option.some_bind']
      rw [ih hrest _]
      simp [List.filter_cons, h1, hgd, List.append_assoc, add_assoc]
      rw [h1] at hgd
      exact hgd.symm
    · obtain ⟨p, hp⟩ := playGame_isSome strA (attrs nb).strategy hA (Or.inr h2)
      have hgd : (playGame strA (attrs nb).strategy).getD 0 = p := by rw [hp]; rfl
      have hstep : scanNeighbour attrs strA acc nb
          = some ({ acc.1 with defectors := acc.1.defectors ++ [nb] }, acc.2 + p) := by
        unfold scanNeighbour
        rw [if_neg (by rw [h2]; norm_num), hp]
        simp only [Option.bind_eq_bind', Option.some_bind']
        rw [if_neg (by rw [h2]; norm_num)]
      rw [hstep]
      simp only [Option.bind_eq_bind', Option.some_bind']
      rw [ih hrest _]
      simp [List.filter_cons, h2, hgd, List.append_assoc, add_assoc]
      rw [h2] at hgd
      exact hgd.symm

/-- **C9.** One horizon scan seeds `freeCells` with the agent's own cell at
score 0; each out-neighbour of strategy 0 is appended to `freeCells` with
score 0 and contributes nothing to the score; each occupied out-neighbour
adds `playGame(agent.strategy, neighbour.strategy)` to the agent's score
attribute — additively on top of the existing score, which is not reset
here — and is appended to `cooperators` (strategy 1) or `defectors`
(strategy 2); only the agent's score attribute changes (`setScore`).  The
reset of the score to 0 happens once per generation per agent, before its
sub-steps, in the generation stepper's per-agent loop (second conjunct). -/
theorem updateScoreAndHorizon_eq (adj : Nat → List Nat) (attrs : Attrs)
    (a : Nat) (hA : (attrs a).strategy = 1 ∨ (attrs a).strategy = 2)
    (hs : ∀ nb ∈ adj a, (attrs nb).strategy = 0 ∨ (attrs nb).strategy = 1 ∨
      (attrs nb).strategy = 2) :
    updateScoreAndHorizon adj attrs a
      = some
        ({ cooperators := (adj a).filter (fun nb => (attrs nb).strategy = 1),
           defectors := (adj a).filter (fun nb => (attrs nb).strategy = 2),
           freeCells := ⟨a, 0⟩ ::
             ((adj a).filter (fun nb => (attrs nb).strategy = 0)).map
               (fun nb => ⟨nb, 0⟩) },
         setScore attrs a ((attrs a).score
           + (((adj a).filter (fun nb => ¬ (attrs nb).strategy = 0)).map
               (fun nb =>
                 (playGame (attrs a).strategy (attrs nb).strategy).getD 0)).sum)) := by
  unfold updateScoreAndHorizon
  dsimp only
  rw [scanNeighbour_foldlM attrs (attrs a).strategy hA (adj a) hs _]
  simp only [Option.bind_eq_bind', Option.some_bind']
  simp [List.nil_append, List.singleton_append]

theorem updateScoreAndHorizon_spec :
    (∀ (adj : Nat → List Nat) (attrs : Attrs) (a : Nat),
      ((attrs a).strategy = 1 ∨ (attrs a).strategy = 2) →
      (∀ nb ∈ adj a, (attrs nb).strategy = 0 ∨ (attrs nb).strategy = 1 ∨
        (attrs nb).strategy = 2) →
      updateScoreAndHorizon adj attrs a
        = some
          ({ cooperators := (adj a).filter (fun nb => (attrs nb).strategy = 1),
             defectors := (adj a).filter (fun nb => (attrs nb).strategy = 2),
             freeCells := ⟨a, 0⟩ ::
               ((adj a).filter (fun nb => (attrs nb).strategy = 0)).map
                 (fun nb => ⟨nb, 0⟩) },
           setScore attrs a ((attrs a).score
             + (((adj a).filter (fun nb => ¬ (attrs nb).strategy = 0)).map
                 (fun nb =>
                   (playGame (attrs a).strategy (attrs nb).strategy).getD 0)).sum))) ∧
    (∀ (adj : Nat → List Nat) (spg : Nat) (a : Nat) (rest : List Nat)
       (attrs : Attrs) (empty r : List Nat),
      agentsLoop adj spg (a :: rest) attrs empty r
        = match subSteps adj spg (setScore attrs a 0) empty a r with
          | none => none
          | some (attrs1, empty1, a1, r1) =>
            match agentsLoop adj spg rest attrs1 empty1 r1 with
            | none => none
            | some (rest1, attrs2, empty2, r2) =>
              some (a1 :: rest1, attrs2, empty2, r2)) := by
  constructor
  · intro adj attrs a hA hs
    exact updateScoreAndHorizon_eq adj attrs a hA hs
  · intro adj spg a rest attrs empty r
    rfl

/-- **C9 witness.** Agent 0 of the concrete 4-ring world (both neighbours
cooperators, previous score 4) gains `playGame(1,1) = 3` per neighbour:
final score attribute 10, both neighbours in `cooperators`, and `freeCells`
holding only its own cell. -/
theorem updateScoreAndHorizon_spec_witness :
    updateScoreAndHorizon exAdj exAttrs 0
      = some (⟨[1, 3], [], [⟨0, 0⟩]⟩, setScore exAttrs 0 10) := by
  have h := updateScoreAndHorizon_spec.1 exAdj exAttrs 0 (by decide)
    (by intro nb hnb; fin_cases hnb <;> decide)
  rw [h]
  rfl

/-! ## Claim C6: the movement decision dispatch -/

/-- **C6.** `updatePosition` selects its decision rule by case, as the
claim states: a single free cell (the self cell) is a no-op; with
`effectiveNeighbours = outDegree - (freeCells.size - 1)` equal to zero it
moves to one uniform draw among all free cells (the self cell included) by
an expression that never reads the genome; with only cooperators around it
applies genome bits [7:6] to the cooperator list; with only defectors, bits
[5:4] to the defector list; otherwise bits [3:2] to the cooperators and
then bits [1:0] to the defectors, both on the same free-cell array. -/
theorem updatePosition_dispatch :
    ∀ (adj : Nat → List Nat) (attrs : Attrs) (empty : List Nat) (a : Nat)
      (h : Horizon) (r : List Nat),
    (h.freeCells.length = 1 →
      updatePosition adj attrs empty a h r = some (attrs, empty, a, r)) ∧
    (h.freeCells.length ≠ 0 →
      h.freeCells.length ≠ 1 →
      ((adj a).length : Int) - ((h.freeCells.length : Int) - 1) = 0 →
      updatePosition adj attrs empty a h r
        = some ((move attrs empty a
              ((h.freeCells.getD ((uniformN (h.freeCells.length - 1) r).1)
                ⟨0, 0⟩).id)).1,
            (move attrs empty a
              ((h.freeCells.getD ((uniformN (h.freeCells.length - 1) r).1)
                ⟨0, 0⟩).id)).2.1,
            (move attrs empty a
              ((h.freeCells.getD ((uniformN (h.freeCells.length - 1) r).1)
                ⟨0, 0⟩).id)).2.2,
            (uniformN (h.freeCells.length - 1) r).2)) ∧
    (h.freeCells.length ≠ 0 →
      h.freeCells.length ≠ 1 →
      ((adj a).length : Int) - ((h.freeCells.length : Int) - 1) ≠ 0 →
      ((adj a).length : Int) - ((h.freeCells.length : Int) - 1)
        = (h.cooperators.length : Int) →
      updatePosition adj attrs empty a h r
        = pickAndMove attrs empty a
            (evalFreeCells adj h.freeCells h.cooperators
              (bit (attrs a).actions 7 * 2 + bit (attrs a).actions 6) r)) ∧
    (h.freeCells.length ≠ 0 →
      h.freeCells.length ≠ 1 →
      ((adj a).length : Int) - ((h.freeCells.length : Int) - 1) ≠ 0 →
      ((adj a).length : Int) - ((h.freeCells.length : Int) - 1)
        ≠ (h.cooperators.length : Int) →
      ((adj a).length : Int) - ((h.freeCells.length : Int) - 1)
        = (h.defectors.length : Int) →
      updatePosition adj attrs empty a h r
        = pickAndMove attrs empty a
            (evalFreeCells adj h.freeCells h.defectors
              (bit (attrs a).actions 5 * 2 + bit (attrs a).actions 4) r)) ∧
    (h.freeCells.length ≠ 0 →
      h.freeCells.length ≠ 1 →
      ((adj a).length : Int) - ((h.freeCells.length : Int) - 1) ≠ 0 →
      ((adj a).length : Int) - ((h.freeCells.length : Int) - 1)
        ≠ (h.cooperators.length : Int) →
      ((adj a).length : Int) - ((h.freeCells.length : Int) - 1)
        ≠ (h.defectors.length : Int) →
      updatePosition adj attrs empty a h r
        = pickAndMove attrs empty a
            ((evalFreeCells adj h.freeCells h.cooperators
                (bit (attrs a).actions 3 * 2 + bit (attrs a).actions 2) r).bind
              (fun fr => evalFreeCells adj fr.1 h.defectors
                (bit (attrs a).actions 1 * 2 + bit (attrs a).actions 0) fr.2))) := by
  intro adj attrs empty a h r
  refine ⟨?_, ?_, ?_, ?_, ?_⟩
  · intro h1
    unfold updatePosition
    rw [if_neg (by omega : ¬ h.freeCells.length = 0), if_pos h1]
  · intro h0 h1 h2
    unfold updatePosition
    rw [if_neg h0, if_neg h1]
    simp only [if_pos h2]
  · intro h0 h1 h2 h3
    unfold updatePosition
    rw [if_neg h0, if_neg h1]
    simp only [if_neg h2, if_pos h3]
  · intro h0 h1 h2 h3 h4
    unfold updatePosition
    rw [if_neg h0, if_neg h1]
    simp only [if_neg h2, if_neg h3, if_pos h4]
  · intro h0 h1 h2 h3 h4
    unfold updatePosition
    rw [if_neg h0, if_neg h1]
    simp only [if_neg h2, if_neg h3, if_neg h4]

/-- **C6 witness.** Two instantiations on the 4-ring world: the
single-free-cell no-op for agent 5, and the zero-occupied-neighbours case
for agent 0 with free cells `[0, 1, 3]`, stream draw 1, which relocates the
agent to cell 1 (attributes moved, cell 0 freed). -/
theorem updatePosition_dispatch_witness :
    updatePosition exAdj exAttrs [] 5 ⟨[], [], [⟨5, 0⟩]⟩ []
      = some (exAttrs, [], 5, []) ∧
    updatePosition exAdj exAttrs [1, 3] 0 ⟨[], [], [⟨0, 0⟩, ⟨1, 0⟩, ⟨3, 0⟩]⟩ [1]
      = some ((move exAttrs [1, 3] 0 1).1, (move exAttrs [1, 3] 0 1).2.1,
          (move exAttrs [1, 3] 0 1).2.2, []) := by
  constructor
  · exact (updatePosition_dispatch exAdj exAttrs [] 5 ⟨[], [], [⟨5, 0⟩]⟩ []).1 rfl
  · have h := (updatePosition_dispatch exAdj exAttrs [1, 3] 0
      ⟨[], [], [⟨0, 0⟩, ⟨1, 0⟩, ⟨3, 0⟩]⟩ [1]).2.1 (by decide) (by decide) (by decide)
    rw [h]
    rfl

/-- **C7 witness.** The sub-policies evaluated on a concrete horizon: the
4-ring graph `0-1-2-3`, free cells `[⟨0,0⟩, ⟨1,0⟩]`, neighbour class `[2]`,
and stream `[5]`. -/
theorem evalFreeCells_subpolicies_witness :
    (evalFreeCells (fun i => [[1, 3], [2, 0], [3, 1], [0, 2]].getD i [])
        [⟨0, 0⟩, ⟨1, 0⟩] [2] 0 [5]
      = some ([⟨0, 0⟩, ⟨1, -1⟩], [5])) ∧
    (evalFreeCells (fun i => [[1, 3], [2, 0], [3, 1], [0, 2]].getD i [])
        [⟨0, 0⟩, ⟨1, 0⟩] [2] 3 [5]
      = some ([⟨0, 1⟩, ⟨1, -1⟩], [])) ∧
    (-1 : Int) ≤ 1 ∧ (1 : Int) ≤ 1 := by
  have h := evalFreeCells_subpolicies
    (fun i => [[1, 3], [2, 0], [3, 1], [0, 2]].getD i [])
  refine ⟨?_, ?_, ?_, ?_⟩
  · have h0 := h.1 ⟨0, 0⟩ [⟨1, 0⟩] [2] [5]
    rw [h0]; rfl
  · have h3 := h.2.2.2.1 [⟨0, 0⟩, ⟨1, 0⟩] [2] [5]
    rw [h3]; rfl
  · exact (h.2.2.2.2.1 1 2 [5] 1 (by simp [draws, uniformI])).1
  · exact (h.2.2.2.2.1 1 2 [5] 1 (by simp [draws, uniformI])).2

end FollowFlee

namespace FollowFlee

/-! ## Claim C4: the payoff table and its abort domain -/

/-- **C4 counterexample.** The claim states that `playGame` aborts fatally
whenever either strategy lies outside `{1, 2}`; but `playGame(1, 3)` computes
the switch index `(1-1)*2 + (3-1) = 2` and returns the temptation payoff 5
instead of aborting. -/
theorem playGame_out_of_range_returns_value :
    playGame 1 3 = some 5 ∧ (3 : Int) ≠ 1 ∧ (3 : Int) ≠ 2 := by
  refine ⟨?_, by decide, by decide⟩
  rfl

/-- **C4 (amended).** The payoff table holds as stated —
`playGame 1 1 = 3`, `playGame 1 2 = 0`, `playGame 2 1 = 5`,
`playGame 2 2 = 1`, with swapped arguments yielding the swapped entry — but
`playGame` aborts fatally exactly when the combined switch index
`(strA-1)*2 + (strB-1)` falls outside `{0, 1, 2, 3}`, not for every argument
pair with a strategy outside `{1, 2}`. -/
theorem playGame_table_and_abort_domain :
    playGame 1 1 = some 3 ∧ playGame 1 2 = some 0 ∧
    playGame 2 1 = some 5 ∧ playGame 2 2 = some 1 ∧
    ∀ a b : Int, playGame a b = none ↔
      ((a - 1) * 2 + (b - 1) < 0 ∨ 3 < (a - 1) * 2 + (b - 1)) := by
  refine ⟨rfl, rfl, rfl, rfl, ?_⟩
  intro a b
  unfold playGame
  set k := (a - 1) * 2 + (b - 1) with hk
  by_cases h0 : k = 0
  · simp [h0]
  · by_cases h1 : k = 1
    · simp [h0, h1]
    · by_cases h2 : k = 2
      · simp [h0, h1, h2]
      · by_cases h3 : k = 3
        · simp [h0, h1, h2, h3]
        · simp only [h0, h1, h2, h3, if_false]
          constructor
          · intro _; omega
          · intro _; trivial

/-! ## Claim C5: when `init` reports failure -/

/-- **C5 counterexample.** The claim states that `init` returns `false` for
every configuration with a negative `repRate` or a non-positive
`stepsPerGen`; but with `repRate = -1/2` (negative) and `stepsPerGen = 0`
(non-positive) the checks `-1/2 > -1` and `0 > -1` both succeed and `init`
returns `true`. -/
theorem init_accepts_negative_repRate :
    init "simpleBD" (some (-(1 : ℚ)/2)) (some 0) = some true := by
  unfold init repModeFromString
  norm_num

/-- **C5 (amended).** With a recognized replacement mode, `init` returns
`false` exactly when `repRate` (defaulting to `-1` when absent) is `≤ -1` or
`stepsPerGen` (defaulting to `-1` when absent) is `≤ -1`; in particular an
absent value hits the `-1` default and fails, but negative values strictly
greater than `-1` (such as `-1/2`) and `stepsPerGen = 0` are accepted. -/
theorem init_false_iff_le_neg_one :
    ∀ (rr : Option ℚ) (spg : Option Int),
      init "simpleBD" rr spg = some false ↔
        (rr.getD (-1) ≤ -1 ∨ spg.getD (-1) ≤ -1) := by
  intro rr spg
  have h : init "simpleBD" rr spg
      = some (decide (rr.getD (-1) > -1) && decide (spg.getD (-1) > -1)) := rfl
  rw [h]
  simp only [Option.some.injEq, Bool.and_eq_false_iff,
    decide_eq_false_iff_not, not_lt]

end FollowFlee

namespace FollowFlee

/-! ## Claim C2: the population-size invariant of replacement -/

theorem cloneLoopS_length :
    ∀ (j i : Nat) (agents : List Nat) (attrs : Attrs) (empty r : List Nat)
      (res : List Nat × Attrs × List Nat × List Nat),
      cloneLoopS j i agents attrs empty r = some res →
      res.1.length = agents.length + j := by
  intro j
  induction j with
  | zero =>
    intro i agents attrs empty r res h
    unfold cloneLoopS at h
    cases h
    simp
  | succ j ih =>
    intro i agents attrs empty r res h
    unfold cloneLoopS at h
    cases hsel : selectEmptyCell empty r with
    | none => rw [hsel] at h; cases h
    | some v =>
      obtain ⟨tgt, r1⟩ := v
      rw [hsel] at h
      have hlen := ih (i + 1) (agents ++ [tgt]) _ _ _ res h
      simp only [List.length_append, List.length_cons, List.length_nil] at hlen
      omega

theorem cloneLoopN_length (adj : Nat → List Nat) :
    ∀ (j i : Nat) (agents : List Nat) (attrs : Attrs) (empty r : List Nat)
      (res : List Nat × Attrs × List Nat × List Nat),
      cloneLoopN adj j i agents attrs empty r = some res →
      res.1.length = agents.length + j := by
  intro j
  induction j with
  | zero =>
    intro i agents attrs empty r res h
    unfold cloneLoopN at h
    cases h
    simp
  | succ j ih =>
    intro i agents attrs empty r res h
    unfold cloneLoopN at h
    dsimp only at h
    cases hsel : (if ((adj (agents.getD i 0)).filter
        (fun nb => (attrs nb).strategy = 0)).isEmpty then selectEmptyCell empty r
      else some ((((adj (agents.getD i 0)).filter
          (fun nb => (attrs nb).strategy = 0)).getD
            (r.headD 0 % ((adj (agents.getD i 0)).filter
              (fun nb => (attrs nb).strategy = 0)).length) 0), r.tail)) with
    | none => rw [hsel] at h; cases h
    | some v =>
      obtain ⟨tgt, r1⟩ := v
      rw [hsel] at h
      have hlen := ih (i + 1) (agents ++ [tgt]) _ _ _ res h
      simp only [List.length_append, List.length_cons, List.length_nil] at hlen
      omega

theorem eraseWindow_length (l : List Nat) (k : Nat) (h : 2 * k ≤ l.length) :
    (eraseWindow l k).length = l.length - k := by
  simp only [eraseWindow, List.length_append, List.length_take, List.length_drop]
  omega

/-- **C2.** Both replacement strategies leave the agent count unchanged for
every `agentsToReplace = k` in `[0, N]`: the vacate phase does not touch the
agent vector, the clone loop appends exactly `k` entries, and the container
fix-up window erase removes exactly `k` entries again. -/
theorem replacement_preserves_population_size :
    ∀ (adj : Nat → List Nat) (k : Nat) (agents : List Nat) (attrs : Attrs)
      (empty r : List Nat),
      k ≤ agents.length →
      (∀ res, simpleBD k agents attrs empty r = some res →
        res.1.length = agents.length) ∧
      (∀ res, neighbourBD adj k agents attrs empty r = some res →
        res.1.length = agents.length) := by
  intro adj k agents attrs empty r hk
  constructor
  · intro res h
    unfold simpleBD at h
    dsimp only at h
    cases hcl : cloneLoopS k 0 agents attrs (vacateWorst k agents empty) r with
    | none => rw [hcl] at h; cases h
    | some mid =>
      obtain ⟨ag2, at2, em2, r2⟩ := mid
      rw [hcl] at h
      cases h
      have hmid := cloneLoopS_length k 0 agents attrs _ r _ hcl
      simp only at hmid
      have := eraseWindow_length ag2 k (by omega)
      simp only [this, hmid]
      omega
  · intro res h
    unfold neighbourBD at h
    dsimp only at h
    cases hcl : cloneLoopN adj k 0 agents attrs (vacateWorst k agents empty) r with
    | none => rw [hcl] at h; cases h
    | some mid =>
      obtain ⟨ag2, at2, em2, r2⟩ := mid
      rw [hcl] at h
      cases h
      have hmid := cloneLoopN_length adj k 0 agents attrs _ r _ hcl
      simp only at hmid
      have := eraseWindow_length ag2 k (by omega)
      simp only [this, hmid]
      omega

/-- **C2 witness.** On the concrete 4-agent world with `k = 2`, both
strategies complete and return a population of exactly 4 agents. -/
theorem replacement_preserves_population_size_witness :
    (simpleBD 2 [0, 1, 2, 3] exAttrs [] [0, 0]).map (fun res => res.1.length)
      = some 4 ∧
    (neighbourBD exAdj 2 [0, 1, 2, 3] exAttrs [] [0, 0]).map
        (fun res => res.1.length)
      = some 4 := by
  have h := replacement_preserves_population_size exAdj 2 [0, 1, 2, 3] exAttrs
    [] [0, 0] (by decide)
  constructor
  · have hs : (simpleBD 2 [0, 1, 2, 3] exAttrs [] [0, 0]).isSome = true := rfl
    obtain ⟨res, hres⟩ := Option.isSome_iff_exists.mp hs
    rw [hres, Option.map_some']
    rw [h.1 res hres]
    rfl
  · have hs : (neighbourBD exAdj 2 [0, 1, 2, 3] exAttrs [] [0, 0]).isSome
        = true := rfl
    obtain ⟨res, hres⟩ := Option.isSome_iff_exists.mp hs
    rw [hres, Option.map_some']
    rw [h.2 res hres]
    rfl

end FollowFlee

namespace FollowFlee

/-! ## Claim C10: the by-value sort leaves the member state untouched -/

theorem insertCell_fresh (e : List Nat) (x : Nat) (hx : x ∉ e) :
    insertCell e x = e ++ [x] := by
  unfold insertCell
  rw [if_neg hx]

theorem foldl_insertCell_fresh :
    ∀ (ids e : List Nat), ids.Nodup → (∀ x ∈ ids, x ∉ e) →
      ids.foldl insertCell e = e ++ ids := by
  intro ids
  induction ids with
  | nil => intro e _ _; simp
  | cons x ids ih =>
    intro e hnd hfresh
    rw [List.foldl_cons, insertCell_fresh e x (hfresh x (List.mem_cons_self x ids))]
    rw [ih (e ++ [x]) hnd.of_cons (by
      intro y hy hmem
      rcases List.mem_append.mp hmem with hcase | hcase
      · exact hfresh y (List.mem_cons_of_mem x hy) hcase
      · rw [List.mem_singleton] at hcase
        subst hcase
        exact (List.nodup_cons.mp hnd).1 hy)]
    simp

theorem vacate_map_range (agents : List Nat) :
    ∀ (k : Nat), k ≤ agents.length →
      (List.range k).map (fun i => agents.getD (agents.length - 1 - i) 0)
        = (agents.drop (agents.length - k)).reverse := by
  intro k
  induction k with
  | zero => intro _; simp
  | succ k ih =>
    intro hk
    rw [List.range_succ, List.map_append, ih (by omega), List.map_singleton]
    have h1 : agents.length - (k + 1) < agents.length := by omega
    have hidx : agents.length - 1 - k = agents.length - (k + 1) := by omega
    rw [hidx, List.getD_eq_getElem agents 0 h1]
    rw [List.drop_eq_getElem_cons h1, List.reverse_cons]
    have hd : agents.length - (k + 1) + 1 = agents.length - k := by omega
    rw [hd]

theorem cloneLoopS_proj :
    ∀ (j i : Nat) (agents : List Nat) (empty r : List Nat) (attrs attrs' : Attrs),
      (cloneLoopS j i agents attrs empty r).map
          (fun res => (res.1, res.2.2.1, res.2.2.2))
        = (cloneLoopS j i agents attrs' empty r).map
          (fun res => (res.1, res.2.2.1, res.2.2.2)) := by
  intro j
  induction j with
  | zero => intro i agents empty r attrs attrs'; rfl
  | succ j ih =>
    intro i agents empty r attrs attrs'
    unfold cloneLoopS
    cases hsel : selectEmptyCell empty r with
    | none => rfl
    | some v =>
      obtain ⟨tgt, r1⟩ := v
      dsimp only
      exact ih (i + 1) (agents ++ [tgt]) (empty.erase tgt) r1 _ _

theorem simpleBD_proj (k : Nat) (agents empty r : List Nat)
    (attrs attrs' : Attrs) :
    (simpleBD k agents attrs empty r).map
        (fun res => (res.1, res.2.2.1, res.2.2.2))
      = (simpleBD k agents attrs' empty r).map
        (fun res => (res.1, res.2.2.1, res.2.2.2)) := by
  unfold simpleBD
  dsimp only
  have h := cloneLoopS_proj k 0 agents (vacateWorst k agents empty) r attrs attrs'
  cases h1 : cloneLoopS k 0 agents attrs (vacateWorst k agents empty) r with
  | none =>
    cases h2 : cloneLoopS k 0 agents attrs' (vacateWorst k agents empty) r with
    | none => rfl
    | some w => rw [h1, h2] at h; cases h
  | some v =>
    cases h2 : cloneLoopS k 0 agents attrs' (vacateWorst k agents empty) r with
    | none => rw [h1, h2] at h; cases h
    | some w =>
      rw [h1, h2] at h
      simp only [Option.map_some', Option.some.injEq] at h
      obtain ⟨ag2, at2, em2, r2⟩ := v
      obtain ⟨ag2', at2', em2', r2'⟩ := w
      simp only at h
      have hag : ag2 = ag2' := congrArg (fun t => t.1) h
      have hem : em2 = em2' := congrArg (fun t => t.2.1) h
      have hr : r2 = r2' := congrArg (fun t => t.2.2) h
      subst hag; subst hem; subst hr
      rfl

theorem cloneLoopS_step_src (j i : Nat) (agents : List Nat) (attrs : Attrs)
    (empty r : List Nat) (hi : i < agents.length) :
    cloneLoopS (j + 1) i agents attrs empty r
      = match selectEmptyCell empty r with
        | none => none
        | some (tgt, r1) =>
          cloneLoopS j (i + 1) (agents ++ [tgt])
            (copyAttrs attrs (agents.getD i 0) tgt) (empty.erase tgt) r1 := by
  simp only [cloneLoopS]
  cases selectEmptyCell empty r with
  | none => rfl
  | some v =>
    obtain ⟨tgt, r1⟩ := v
    dsimp only
    rw [List.getD_append _ _ _ _ hi]

/-- **C10.** `sortAgentsByScore` receives the agent vector by value: the
call at the top of both replacement strategies only builds a sorted
permutation that is discarded at return, leaving the member agent list
unchanged (same elements in the same order).  Consequently: (b) the vacate
phase inserts into the empty-cell map exactly the ids at the LAST `k`
positions of the current (post-shuffle) iteration order; (c) which agent
entries `simpleBD` keeps and which cells receive clones is completely
independent of the node attributes — in particular of any score ordering;
and (d) the clone made at loop counter `i` copies the attributes of the
agent at position `i` of the same unsorted vector. -/
theorem sortAgentsByScore_by_value_frame :
    (∀ (attrs : Attrs) (agents : List Nat),
      (sortAgentsByScore attrs agents).Perm agents) ∧
    (∀ (k : Nat) (agents empty : List Nat),
      k ≤ agents.length → agents.Nodup → (∀ x ∈ agents, x ∉ empty) →
      vacateWorst k agents empty
        = empty ++ (agents.drop (agents.length - k)).reverse) ∧
    (∀ (k : Nat) (agents empty r : List Nat) (attrs attrs' : Attrs),
      (simpleBD k agents attrs empty r).map
          (fun res => (res.1, res.2.2.1, res.2.2.2))
        = (simpleBD k agents attrs' empty r).map
          (fun res => (res.1, res.2.2.1, res.2.2.2))) ∧
    (∀ (j i : Nat) (agents : List Nat) (attrs : Attrs) (empty r : List Nat),
      i < agents.length →
      cloneLoopS (j + 1) i agents attrs empty r
        = match selectEmptyCell empty r with
          | none => none
          | some (tgt, r1) =>
            cloneLoopS j (i + 1) (agents ++ [tgt])
              (copyAttrs attrs (agents.getD i 0) tgt) (empty.erase tgt) r1) := by
  refine ⟨?_, ?_, ?_, ?_⟩
  · intro attrs agents
    exact List.perm_insertionSort _ _
  · intro k agents empty hk hnd hfresh
    unfold vacateWorst
    calc (List.range k).foldl
          (fun e i => insertCell e (agents.getD (agents.length - 1 - i) 0)) empty
        = ((List.range k).map
            (fun i => agents.getD (agents.length - 1 - i) 0)).foldl
              insertCell empty :=
          (List.foldl_map (fun i => agents.getD (agents.length - 1 - i) 0)
            insertCell (List.range k) empty).symm
      _ = ((agents.drop (agents.length - k)).reverse).foldl insertCell empty := by
          rw [vacate_map_range agents k hk]
      _ = empty ++ (agents.drop (agents.length - k)).reverse := by
          apply foldl_insertCell_fresh
          · rw [List.nodup_reverse]
            exact hnd.sublist (List.drop_sublist _ _)
          · intro x hx
            rw [List.mem_reverse] at hx
            exact hfresh x ((List.drop_sublist _ _).subset hx)
  · intro k agents empty r attrs attrs'
    exact simpleBD_proj k agents empty r attrs attrs'
  · intro j i agents attrs empty r hi
    exact cloneLoopS_step_src j i agents attrs empty r hi

/-- **C10 witness.** The by-value sorted copy of the 4-agent vector is a
permutation of it; vacating with `k = 2` marks exactly nodes 3 and 2 (the
last two of the vector) empty; and `simpleBD` selects the same cells under
the ascending scores `[4,6,8,10]` and the reversed scores `[10,8,6,4]`. -/
theorem sortAgentsByScore_by_value_frame_witness :
    (sortAgentsByScore exAttrs [0, 1, 2, 3]).Perm [0, 1, 2, 3] ∧
    vacateWorst 2 [0, 1, 2, 3] [] = [] ++ [3, 2] ∧
    (simpleBD 2 [0, 1, 2, 3] exAttrs [] [0, 0]).map
        (fun res => (res.1, res.2.2.1, res.2.2.2))
      = (simpleBD 2 [0, 1, 2, 3] exAttrs2 [] [0, 0]).map
        (fun res => (res.1, res.2.2.1, res.2.2.2)) := by
  refine ⟨sortAgentsByScore_by_value_frame.1 exAttrs [0, 1, 2, 3], ?_,
    sortAgentsByScore_by_value_frame.2.2.1 2 [0, 1, 2, 3] [] [0, 0]
      exAttrs exAttrs2⟩
  have h := sortAgentsByScore_by_value_frame.2.1 2 [0, 1, 2, 3] []
    (by decide) (by decide) (fun x _ => List.not_mem_nil x)
  rw [h]
  rfl

end FollowFlee

namespace FollowFlee

/-! ## Claim C1: what simpleBD does on an ascending-score population -/

/-- **C1 (failing input).** Because `sortAgentsByScore` never reorders the
member vector (claim C10), `simpleBD` vacates the last-listed and clones the
first-listed agents.  On population `[0, 1, 2, 3]` with ascending scores
`[4, 6, 8, 10]` and `agentsToReplace = 2` (the value of `floor(4 * 0.5)`),
the agents scored 8 and 10 — the two HIGHEST — are vacated and overwritten
by clones of the agents scored 4 and 6 — the two LOWEST: the final
population's scores are `[4, 6, 4, 6]`, not the multiset `{10, 8, 10, 8}`
the claim requires. -/
theorem simpleBD_unsorted_run :
    (simpleBD 2 [0, 1, 2, 3] exAttrs [] [0, 0]).map
        (fun res => (res.1, res.1.map (fun i => (res.2.1 i).score)))
      = some ([0, 1, 3, 2], [4, 6, 4, 6]) ∧
    [(exAttrs 0).score, (exAttrs 1).score, (exAttrs 2).score,
      (exAttrs 3).score] = [4, 6, 8, 10] ∧
    (⌊(4 : ℚ) * (1 / 2)⌋).toNat = 2 := by
  refine ⟨rfl, rfl, ?_⟩
  norm_num
  rfl

end FollowFlee

namespace FollowFlee

/-! ## Claim C8: determinism and order-insensitivity of a generation -/

theorem St.ext_eq (s1 s2 : St) (h1 : s1.attrs = s2.attrs)
    (h2 : s1.agents = s2.agents) (h3 : s1.empty = s2.empty) : s1 = s2 := by
  cases s1; cases s2; simp_all

theorem shuffle_perm : ∀ (n : Nat) (xs r : List Nat), xs.length = n →
    (shuffle xs r).1.Perm xs := by
  intro n
  induction n using Nat.strong_induction_on with
  | _ n ih =>
    intro xs r hlen
    by_cases hx : xs = []
    · subst hx
      rw [shuffle]
      simp
    · rw [shuffle, dif_neg hx]
      have hl : 0 < xs.length := List.length_pos.mpr hx
      have hk : r.headD 0 % xs.length < xs.length := Nat.mod_lt _ hl
      have hrec : (shuffle (xs.eraseIdx (r.headD 0 % xs.length)) r.tail).1.Perm
          (xs.eraseIdx (r.headD 0 % xs.length)) := by
        apply ih ((xs.eraseIdx (r.headD 0 % xs.length)).length) _ _ r.tail rfl
        have := List.length_eraseIdx_add_one hk
        omega
      dsimp only
      rw [List.getD_eq_getElem xs 0 hk]
      refine (hrec.cons _).trans ?_
      exact ((List.perm_cons_erase (xs.getElem_mem hk)).trans
        ((List.erase_getElem hk).cons _)).symm

/-- **C8.** One generation is a deterministic function of the state and the
random-source state: two runs of any number of generations from equal
states with equal streams produce equal results (first conjunct).
Moreover, because `algorithmStep` re-sorts the agent vector by node id
before applying its single shuffle, the step is insensitive to any prior
ordering drift of the stored agent vector: states that differ only by a
permutation of the agent vector step to identical results under the same
stream (second conjunct). -/
theorem algorithmStep_deterministic :
    (∀ (adj : Nat → List Nat) (spg : Nat) (repRate : ℚ) (repMode : RepMode)
       (n : Nat) (s1 s2 : St) (r1 r2 : List Nat),
      s1 = s2 → r1 = r2 →
      runGens adj spg repRate repMode n s1 r1
        = runGens adj spg repRate repMode n s2 r2) ∧
    (∀ (adj : Nat → List Nat) (spg : Nat) (repRate : ℚ) (repMode : RepMode)
       (st1 st2 : St) (r : List Nat),
      st1.attrs = st2.attrs → st1.empty = st2.empty →
      st1.agents.Perm st2.agents →
      algorithmStep adj spg repRate repMode st1 r
        = algorithmStep adj spg repRate repMode st2 r) := by
  constructor
  · intro adj spg repRate repMode n s1 s2 r1 r2 hs hr
    subst hs
    subst hr
    rfl
  · intro adj spg repRate repMode st1 st2 r hattrs hempty hperm
    by_cases hnil : st1.agents = []
    · have hnil2 : st2.agents = [] := by
        rw [hnil] at hperm
        exact hperm.symm.eq_nil
      unfold algorithmStep
      rw [if_pos hnil, if_pos hnil2]
      rw [St.ext_eq st1 st2 hattrs (by rw [hnil, hnil2]) hempty]
    · have hnil2 : ¬ st2.agents = [] := by
        intro h2
        rw [h2] at hperm
        exact hnil hperm.eq_nil
      have hsort : sortById st1.agents = sortById st2.agents := by
        unfold sortById
        exact List.eq_of_perm_of_sorted
          ((List.perm_insertionSort _ _).trans
            (hperm.trans (List.perm_insertionSort _ _).symm))
          (List.sorted_insertionSort _ _) (List.sorted_insertionSort _ _)
      unfold algorithmStep
      rw [if_neg hnil, if_neg hnil2, hsort, hattrs, hempty]

/-- **C8 witness.** A replay of one generation of the concrete 4-agent world
from identical inputs, and one step from the agent vector stored in reversed
order, both yield identical results. -/
theorem algorithmStep_deterministic_witness :
    runGens exAdj 1 (1 / 2) RepMode.SimpleBD 1 ⟨exAttrs, [0, 1, 2, 3], []⟩
        [0, 0, 0]
      = runGens exAdj 1 (1 / 2) RepMode.SimpleBD 1 ⟨exAttrs, [0, 1, 2, 3], []⟩
        [0, 0, 0] ∧
    algorithmStep exAdj 1 (1 / 2) RepMode.SimpleBD ⟨exAttrs, [0, 1, 2, 3], []⟩
        [0, 0, 0]
      = algorithmStep exAdj 1 (1 / 2) RepMode.SimpleBD
        ⟨exAttrs, [3, 2, 1, 0], []⟩ [0, 0, 0] := by
  constructor
  · exact algorithmStep_deterministic.1 exAdj 1 (1 / 2) RepMode.SimpleBD 1
      ⟨exAttrs, [0, 1, 2, 3], []⟩ ⟨exAttrs, [0, 1, 2, 3], []⟩ [0, 0, 0]
      [0, 0, 0] rfl rfl
  · exact algorithmStep_deterministic.2 exAdj 1 (1 / 2) RepMode.SimpleBD
      ⟨exAttrs, [0, 1, 2, 3], []⟩ ⟨exAttrs, [3, 2, 1, 0], []⟩ [0, 0, 0]
      rfl rfl (by decide)

end FollowFlee

namespace FollowFlee

/-! ## Claim C3: the agents/empty-cells partition invariant -/

theorem setScore_strategy (attrs : Attrs) (i : Nat) (v : Int) (x : Nat) :
    ((setScore attrs i v) x).strategy = (attrs x).strategy := by
  unfold setScore
  by_cases h : x = i <;> simp [h]

theorem Inv_setScore (N : List Nat) (attrs : Attrs) (agents empty : List Nat)
    (i : Nat) (v : Int) (hI : Inv N attrs agents empty) :
    Inv N (setScore attrs i v) agents empty := by
  refine ⟨hI.agents_nodup, hI.empty_nodup, hI.disj, hI.union, ?_, ?_, ?_⟩
  · intro x hx
    rw [setScore_strategy]
    exact hI.strat_pos x hx
  · intro x hx
    rw [setScore_strategy]
    exact hI.strat_zero x hx
  · intro x
    rw [setScore_strategy]
    exact hI.strat_range x

theorem clear_foldl_not_mem :
    ∀ (l : List Nat) (a : Attrs) (x : Nat), x ∉ l →
      (l.foldl clearAttrs a) x = a x := by
  intro l
  induction l with
  | nil => intro a x _; rfl
  | cons y l ih =>
    intro a x hx
    rw [List.foldl_cons]
    rw [ih (clearAttrs a y) x (fun h => hx (List.mem_cons_of_mem y h))]
    unfold clearAttrs
    rw [if_neg (fun h => hx (by rw [h]; exact List.mem_cons_self y l))]

theorem clear_foldl_mem :
    ∀ (l : List Nat) (a : Attrs) (x : Nat), x ∈ l →
      (l.foldl clearAttrs a) x = ⟨0, 0, 0⟩ := by
  intro l
  induction l with
  | nil => intro a x hx; cases hx
  | cons y l ih =>
    intro a x hx
    rw [List.foldl_cons]
    by_cases hxl : x ∈ l
    · exact ih _ x hxl
    · have hxy : x = y := by
        rcases List.mem_cons.mp hx with h | h
        · exact h
        · exact absurd h hxl
      rw [clear_foldl_not_mem l _ x hxl]
      unfold clearAttrs
      rw [if_pos hxy]

theorem mem_insertCell (e : List Nat) (i x : Nat) :
    x ∈ insertCell e i ↔ x ∈ e ∨ x = i := by
  unfold insertCell
  by_cases h : i ∈ e
  · rw [if_pos h]
    constructor
    · exact Or.inl
    · rintro (hx | hx)
      · exact hx
      · rw [hx]; exact h
  · rw [if_neg h]
    simp [List.mem_append]

theorem move_inv (N : List Nat) (attrs : Attrs) (empty : List Nat)
    (pre post : List Nat) (a tgt : Nat)
    (hI : Inv N attrs (pre ++ a :: post) empty)
    (htgt : tgt = a ∨ tgt ∈ empty) :
    Inv N (move attrs empty a tgt).1
      (pre ++ (move attrs empty a tgt).2.2 :: post)
      (move attrs empty a tgt).2.1 := by
  by_cases heq : a = tgt
  · unfold move
    rw [if_pos heq]
    exact hI
  · unfold move
    rw [if_neg heq]
    dsimp only
    have hmemA : a ∈ pre ++ a :: post := by simp
    have htgtE : tgt ∈ empty := by
      rcases htgt with h | h
      · exact absurd h.symm heq
      · exact h
    have haE : a ∉ empty := fun h => hI.disj a ⟨hmemA, h⟩
    have htgtA : tgt ∉ pre ++ a :: post := fun h => hI.disj tgt ⟨h, htgtE⟩
    have hmid := List.nodup_cons.mp (List.nodup_middle.mp hI.agents_nodup)
    have htgtPP : tgt ∉ pre ++ post := by
      intro h
      apply htgtA
      rcases List.mem_append.mp h with h | h
      · exact List.mem_append.mpr (Or.inl h)
      · exact List.mem_append.mpr (Or.inr (List.mem_cons_of_mem a h))
    have hINS : insertCell (empty.erase tgt) a = empty.erase tgt ++ [a] := by
      apply insertCell_fresh
      intro h
      exact haE (List.mem_of_mem_erase h)
    have hattrs : ∀ x, (clearAttrs (copyAttrs attrs a tgt) a) x
        = if x = a then (⟨0, 0, 0⟩ : NodeA)
          else if x = tgt then attrs a else attrs x := fun x => rfl
    refine ⟨?_, ?_, ?_, ?_, ?_, ?_, ?_⟩
    · exact List.nodup_middle.mpr (List.nodup_cons.mpr ⟨htgtPP, hmid.2⟩)
    · rw [hINS]
      apply List.Nodup.append (hI.empty_nodup.erase tgt) (List.nodup_singleton a)
      intro x hx hxa
      rw [List.mem_singleton] at hxa
      subst hxa
      exact haE (List.mem_of_mem_erase hx)
    · rintro x ⟨hxA, hxE⟩
      rw [hINS] at hxE
      rcases List.mem_append.mp hxE with hxe | hxe
      · have hxEmp := List.mem_of_mem_erase hxe
        have hxne : x ≠ tgt := (hI.empty_nodup.mem_erase_iff.mp hxe).1
        rcases List.mem_append.mp hxA with h | h
        · exact hI.disj x ⟨List.mem_append.mpr (Or.inl h), hxEmp⟩
        · rcases List.mem_cons.mp h with h | h
          · exact hxne h
          · exact hI.disj x
              ⟨List.mem_append.mpr (Or.inr (List.mem_cons_of_mem a h)), hxEmp⟩
      · rw [List.mem_singleton] at hxe
        subst hxe
        rcases List.mem_append.mp hxA with h | h
        · exact hmid.1 (List.mem_append.mpr (Or.inl h))
        · rcases List.mem_cons.mp h with h | h
          · exact heq h
          · exact hmid.1 (List.mem_append.mpr (Or.inr h))
    · intro x
      rw [hI.union x, hINS]
      constructor
      · rintro (hx | hx)
        · rcases List.mem_append.mp hx with h | h
          · exact Or.inl (List.mem_append.mpr (Or.inl h))
          · rcases List.mem_cons.mp h with h | h
            · subst h
              exact Or.inr (List.mem_append.mpr
                (Or.inr (List.mem_singleton.mpr rfl)))
            · exact Or.inl (List.mem_append.mpr
                (Or.inr (List.mem_cons_of_mem tgt h)))
        · by_cases hxt : x = tgt
          · exact Or.inl (List.mem_append.mpr
              (Or.inr (List.mem_cons.mpr (Or.inl hxt))))
          · exact Or.inr (List.mem_append.mpr
              (Or.inl (hI.empty_nodup.mem_erase_iff.mpr ⟨hxt, hx⟩)))
      · rintro (hx | hx)
        · rcases List.mem_append.mp hx with h | h
          · exact Or.inl (List.mem_append.mpr (Or.inl h))
          · rcases List.mem_cons.mp h with h | h
            · subst h
              exact Or.inr htgtE
            · exact Or.inl (List.mem_append.mpr
                (Or.inr (List.mem_cons_of_mem a h)))
        · rcases List.mem_append.mp hx with h | h
          · exact Or.inr (List.mem_of_mem_erase h)
          · rw [List.mem_singleton] at h
            subst h
            exact Or.inl hmemA
    · intro x hx
      rw [hattrs x]
      rcases List.mem_append.mp hx with h | h
      · have hxa : x ≠ a := fun hh => hmid.1 (hh ▸ List.mem_append.mpr (Or.inl h))
        have hxt : x ≠ tgt := fun hh => htgtPP (hh ▸ List.mem_append.mpr (Or.inl h))
        rw [if_neg hxa, if_neg hxt]
        exact hI.strat_pos x (List.mem_append.mpr (Or.inl h))
      · rcases List.mem_cons.mp h with h | h
        · subst h
          rw [if_neg (fun hh => heq hh.symm), if_pos rfl]
          exact hI.strat_pos a hmemA
        · have hxa : x ≠ a := fun hh => hmid.1 (hh ▸ List.mem_append.mpr (Or.inr h))
          have hxt : x ≠ tgt := fun hh => htgtPP (hh ▸ List.mem_append.mpr (Or.inr h))
          rw [if_neg hxa, if_neg hxt]
          exact hI.strat_pos x
            (List.mem_append.mpr (Or.inr (List.mem_cons_of_mem a h)))
    · intro x hx
      rw [hINS] at hx
      rw [hattrs x]
      rcases List.mem_append.mp hx with h | h
      · have hxt : x ≠ tgt := (hI.empty_nodup.mem_erase_iff.mp h).1
        have hxE := List.mem_of_mem_erase h
        have hxa : x ≠ a := fun hh => haE (hh ▸ hxE)
        rw [if_neg hxa, if_neg hxt]
        exact hI.strat_zero x hxE
      · rw [List.mem_singleton] at h
        subst h
        rw [if_pos rfl]
    · intro x
      rw [hattrs x]
      by_cases h1 : x = a
      · rw [if_pos h1]
        left
        rfl
      · rw [if_neg h1]
        by_cases h2 : x = tgt
        · rw [if_pos h2]
          exact hI.strat_range a
        · rw [if_neg h2]
          exact hI.strat_range x

end FollowFlee

namespace FollowFlee

theorem draws_length (n : Nat) :
    ∀ (k : Nat) (r : List Nat), (draws n r k).length = k := by
  intro k
  induction k with
  | zero => intro r; rfl
  | succ k ih => intro r; simp [draws, ih]

theorem zipWith_score_ids :
    ∀ (fcs : List FreeCell) (ds : List Int), ds.length = fcs.length →
      (List.zipWith (fun fc d => { fc with score := fc.score + d }) fcs ds).map
          (fun fc => fc.id)
        = fcs.map (fun fc => fc.id) := by
  intro fcs
  induction fcs with
  | nil => intro ds _; rfl
  | cons fc rest ih =>
    intro ds hlen
    cases ds with
    | nil => simp at hlen
    | cons d ds =>
      simp only [List.zipWith_cons_cons, List.map_cons]
      rw [ih ds (by simpa using hlen)]

theorem stayStill_ids (fcs : List FreeCell) (m : Int) :
    (stayStill fcs m).map (fun fc => fc.id) = fcs.map (fun fc => fc.id) := by
  cases fcs with
  | nil => rfl
  | cons c rest =>
    simp only [stayStill, List.map_cons, List.map_map]
    rfl

theorem foldl_follow_ids (adj : Nat → List Nat) (nbs : List Nat)
    (fcs : List FreeCell) :
    (nbs.foldl (follow adj) fcs).map (fun fc => fc.id)
      = fcs.map (fun fc => fc.id) := by
  rw [follow_foldl adj nbs fcs, List.map_map]
  rfl

theorem foldl_flee_ids (adj : Nat → List Nat) (nbs : List Nat)
    (fcs : List FreeCell) :
    (nbs.foldl (flee adj) fcs).map (fun fc => fc.id)
      = fcs.map (fun fc => fc.id) := by
  rw [flee_foldl adj nbs fcs, List.map_map]
  rfl

theorem evalFreeCells_ids (adj : Nat → List Nat) (fcs : List FreeCell)
    (nbs : List Nat) (c : Nat) (r : List Nat) (fcs' : List FreeCell)
    (r' : List Nat) (h : evalFreeCells adj fcs nbs c r = some (fcs', r')) :
    fcs'.map (fun fc => fc.id) = fcs.map (fun fc => fc.id) := by
  unfold evalFreeCells at h
  by_cases h0 : c = 0
  · rw [if_pos h0] at h
    injection h with hp
    injection hp with h1 h2
    rw [← h1]
    exact stayStill_ids fcs _
  · rw [if_neg h0] at h
    by_cases h1 : c = 1
    · rw [if_pos h1] at h
      injection h with hp
      injection hp with ha hb
      rw [← ha]
      exact foldl_follow_ids adj nbs fcs
    · rw [if_neg h1] at h
      by_cases h2 : c = 2
      · rw [if_pos h2] at h
        injection h with hp
        injection hp with ha hb
        rw [← ha]
        exact foldl_flee_ids adj nbs fcs
      · rw [if_neg h2] at h
        by_cases h3 : c = 3
        · rw [if_pos h3] at h
          rw [random_eq_zipWith_draws fcs nbs.length r] at h
          injection h with hp
          injection hp with ha hb
          rw [← ha]
          exact zipWith_score_ids fcs _ (by rw [draws_length])
        · rw [if_neg h3] at h
          cases h

theorem highestFold_mem :
    ∀ (fcs : List FreeCell) (acc : Int × List Nat) (x : Nat),
      x ∈ (fcs.foldl (fun acc fc =>
          if fc.score > acc.1 then (fc.score, [fc.id])
          else if fc.score = acc.1 then (acc.1, acc.2 ++ [fc.id])
          else acc) acc).2 →
      x ∈ acc.2 ∨ x ∈ fcs.map (fun fc => fc.id) := by
  intro fcs
  induction fcs with
  | nil => intro acc x h; exact Or.inl h
  | cons fc rest ih =>
    intro acc x h
    rw [List.foldl_cons] at h
    rcases ih _ x h with hacc | hrest
    · by_cases hgt : fc.score > acc.1
      · rw [if_pos hgt] at hacc
        dsimp only at hacc
        rw [List.mem_singleton] at hacc
        subst hacc
        right
        simp
      · rw [if_neg hgt] at hacc
        by_cases heq : fc.score = acc.1
        · rw [if_pos heq] at hacc
          dsimp only at hacc
          rcases List.mem_append.mp hacc with hin | hin
          · exact Or.inl hin
          · rw [List.mem_singleton] at hin
            subst hin
            right
            simp
        · rw [if_neg heq] at hacc
          exact Or.inl hacc
    · right
      simp only [List.map_cons, List.mem_cons]
      exact Or.inr hrest

theorem highestScoreIds_mem (fcs : List FreeCell) (x : Nat)
    (h : x ∈ highestScoreIds fcs) : x ∈ fcs.map (fun fc => fc.id) := by
  unfold highestScoreIds at h
  rcases highestFold_mem fcs _ x h with hacc | hids
  · cases hacc
  · exact hids

theorem headD_mem (l : List Nat) (d : Nat) (h : l ≠ []) : l.headD d ∈ l := by
  cases l with
  | nil => exact absurd rfl h
  | cons x xs => simp

theorem pickAndMove_inv (N : List Nat) (attrs : Attrs) (empty : List Nat)
    (pre post : List Nat) (a : Nat) (ev : Option (List FreeCell × List Nat))
    (res : Attrs × List Nat × Nat × List Nat)
    (hI : Inv N attrs (pre ++ a :: post) empty)
    (hids : ∀ fcs r1, ev = some (fcs, r1) →
      ∀ x ∈ fcs.map (fun fc => fc.id), x = a ∨ x ∈ empty)
    (hres : pickAndMove attrs empty a ev = some res) :
    Inv N res.1 (pre ++ res.2.2.1 :: post) res.2.1 := by
  cases ev with
  | none => cases hres
  | some v =>
    obtain ⟨fcs, r1⟩ := v
    unfold pickAndMove at hres
    dsimp only at hres
    by_cases hnil : highestScoreIds fcs = []
    · rw [if_pos hnil] at hres
      cases hres
    · rw [if_neg hnil] at hres
      have hmem : ∀ y ∈ highestScoreIds fcs, y = a ∨ y ∈ empty := by
        intro y hy
        exact hids fcs r1 rfl y (highestScoreIds_mem fcs y hy)
      by_cases hlen : (highestScoreIds fcs).length = 1
      · rw [if_pos hlen] at hres
        have htgt := hmem ((highestScoreIds fcs).headD 0)
          (headD_mem (highestScoreIds fcs) 0 hnil)
        cases hres
        exact move_inv N attrs empty pre post a _ hI htgt
      · rw [if_neg hlen] at hres
        have hklt : (uniformN ((highestScoreIds fcs).length - 1) r1).1
            < (highestScoreIds fcs).length := by
          unfold uniformN
          dsimp only
          have hpos : 0 < (highestScoreIds fcs).length := List.length_pos.mpr hnil
          have heq1 : (highestScoreIds fcs).length - 1 + 1
              = (highestScoreIds fcs).length := by omega
          rw [heq1]
          exact Nat.mod_lt _ hpos
        have hgd : (highestScoreIds fcs).getD
            (uniformN ((highestScoreIds fcs).length - 1) r1).1 0
            ∈ highestScoreIds fcs := by
          rw [List.getD_eq_getElem _ _ hklt]
          exact List.getElem_mem hklt
        have htgt := hmem _ hgd
        cases hres
        exact move_inv N attrs empty pre post a _ hI htgt

theorem updatePosition_inv (N : List Nat) (adj : Nat → List Nat)
    (attrs : Attrs) (empty : List Nat) (pre post : List Nat) (a : Nat)
    (h : Horizon) (r : List Nat) (res : Attrs × List Nat × Nat × List Nat)
    (hI : Inv N attrs (pre ++ a :: post) empty)
    (hfc : ∀ x ∈ h.freeCells.map (fun fc => fc.id), x = a ∨ x ∈ empty)
    (hres : updatePosition adj attrs empty a h r = some res) :
    Inv N res.1 (pre ++ res.2.2.1 :: post) res.2.1 := by
  unfold updatePosition at hres
  by_cases h0 : h.freeCells.length = 0
  · rw [if_pos h0] at hres
    cases hres
  · rw [if_neg h0] at hres
    by_cases h1 : h.freeCells.length = 1
    · rw [if_pos h1] at hres
      cases hres
      exact hI
    · rw [if_neg h1] at hres
      dsimp only at hres
      by_cases h2 : ((adj a).length : Int) - ((h.freeCells.length : Int) - 1) = 0
      · rw [if_pos h2] at hres
        have hklt : (uniformN (h.freeCells.length - 1) r).1
            < h.freeCells.length := by
          unfold uniformN
          dsimp only
          have hpos : 0 < h.freeCells.length := Nat.pos_of_ne_zero h0
          have heq1 : h.freeCells.length - 1 + 1 = h.freeCells.length := by omega
          rw [heq1]
          exact Nat.mod_lt _ hpos
        have hmemfc : h.freeCells.getD (uniformN (h.freeCells.length - 1) r).1
            ⟨0, 0⟩ ∈ h.freeCells := by
          rw [List.getD_eq_getElem _ _ hklt]
          exact List.getElem_mem hklt
        have htgt := hfc _ (List.mem_map_of_mem (fun fc => fc.id) hmemfc)
        cases hres
        exact move_inv N attrs empty pre post a _ hI htgt
      · rw [if_neg h2] at hres
        by_cases h3 : ((adj a).length : Int) - ((h.freeCells.length : Int) - 1)
            = (h.cooperators.length : Int)
        · rw [if_pos h3] at hres
          refine pickAndMove_inv N attrs empty pre post a _ res hI ?_ hres
          intro fcs r1 hev x hx
          rw [evalFreeCells_ids adj h.freeCells h.cooperators _ r fcs r1 hev] at hx
          exact hfc x hx
        · rw [if_neg h3] at hres
          by_cases h4 : ((adj a).length : Int) - ((h.freeCells.length : Int) - 1)
              = (h.defectors.length : Int)
          · rw [if_pos h4] at hres
            refine pickAndMove_inv N attrs empty pre post a _ res hI ?_ hres
            intro fcs r1 hev x hx
            rw [evalFreeCells_ids adj h.freeCells h.defectors _ r fcs r1 hev] at hx
            exact hfc x hx
          · rw [if_neg h4] at hres
            refine pickAndMove_inv N attrs empty pre post a _ res hI ?_ hres
            intro fcs r1 hev x hx
            cases hev1 : evalFreeCells adj h.freeCells h.cooperators
                (bit (attrs a).actions 3 * 2 + bit (attrs a).actions 2) r with
            | none => rw [hev1] at hev; cases hev
            | some w =>
              obtain ⟨fcs1, r2⟩ := w
              rw [hev1] at hev
              simp only [Option.bind_eq_bind', Option.some_bind'] at hev
              rw [evalFreeCells_ids adj fcs1 h.defectors _ r2 fcs r1 hev] at hx
              rw [evalFreeCells_ids adj h.freeCells h.cooperators _ r fcs1 r2
                hev1] at hx
              exact hfc x hx

end FollowFlee

namespace FollowFlee

theorem subSteps_inv (N : List Nat) (adj : Nat → List Nat)
    (hadj : ∀ i, ∀ x ∈ adj i, x ∈ N) :
    ∀ (s : Nat) (attrs : Attrs) (empty : List Nat) (pre post : List Nat)
      (a : Nat) (r : List Nat) (res : Attrs × List Nat × Nat × List Nat),
      Inv N attrs (pre ++ a :: post) empty →
      subSteps adj s attrs empty a r = some res →
      Inv N res.1 (pre ++ res.2.2.1 :: post) res.2.1 := by
  intro s
  induction s with
  | zero =>
    intro attrs empty pre post a r res hI hres
    unfold subSteps at hres
    cases hres
    exact hI
  | succ s ih =>
    intro attrs empty pre post a r res hI hres
    unfold subSteps at hres
    have hmemA : a ∈ pre ++ a :: post := by simp
    have hA : (attrs a).strategy = 1 ∨ (attrs a).strategy = 2 := by
      have hp := hI.strat_pos a hmemA
      rcases hI.strat_range a with hh | hh | hh
      · omega
      · exact Or.inl hh
      · exact Or.inr hh
    have hsr : ∀ nb ∈ adj a, (attrs nb).strategy = 0 ∨ (attrs nb).strategy = 1 ∨
        (attrs nb).strategy = 2 := fun nb _ => hI.strat_range nb
    cases hsc : updateScoreAndHorizon adj attrs a with
    | none => rw [hsc] at hres; cases hres
    | some v =>
      obtain ⟨H, A1⟩ := v
      rw [hsc] at hres
      dsimp only at hres
      have heq := updateScoreAndHorizon_eq adj attrs a hA hsr
      rw [hsc] at heq
      injection heq with hv
      have hH : H = ⟨(adj a).filter (fun nb => (attrs nb).strategy = 1),
          (adj a).filter (fun nb => (attrs nb).strategy = 2),
          ⟨a, 0⟩ :: ((adj a).filter (fun nb => (attrs nb).strategy = 0)).map
            (fun nb => ⟨nb, 0⟩)⟩ := congrArg Prod.fst hv
      have hA1 : A1 = setScore attrs a ((attrs a).score
          + (((adj a).filter (fun nb => ¬ (attrs nb).strategy = 0)).map
              (fun nb =>
                (playGame (attrs a).strategy (attrs nb).strategy).getD 0)).sum) :=
        congrArg Prod.snd hv
      cases hup : updatePosition adj A1 empty a H r with
      | none => rw [hup] at hres; cases hres
      | some res1 =>
        obtain ⟨A2, E2, a2, r2⟩ := res1
        rw [hup] at hres
        have hI1 : Inv N A1 (pre ++ a :: post) empty := by
          rw [hA1]
          exact Inv_setScore N attrs _ empty a _ hI
        have hfc : ∀ x ∈ H.freeCells.map (fun fc => fc.id),
            x = a ∨ x ∈ empty := by
          rw [hH]
          intro x hx
          simp only [List.map_cons, List.mem_cons] at hx
          rcases hx with hx | hx
          · exact Or.inl hx
          · right
            rw [List.map_map] at hx
            have hxf : x ∈ (adj a).filter
                (fun nb => decide ((attrs nb).strategy = 0)) := by
              have hid : (((adj a).filter
                  (fun nb => decide ((attrs nb).strategy = 0))).map
                    ((fun fc => fc.id) ∘ (fun nb => (⟨nb, 0⟩ : FreeCell))))
                  = (adj a).filter (fun nb => decide ((attrs nb).strategy = 0)) :=
                List.map_id' _
              rw [hid] at hx
              exact hx
            have hmf := List.mem_filter.mp hxf
            have hzero : (attrs x).strategy = 0 := of_decide_eq_true hmf.2
            have hxN : x ∈ N := hadj a x hmf.1
            rcases (hI.union x).mp hxN with hag | hem
            · have := hI.strat_pos x hag
              omega
            · exact hem
        have hI2 := updatePosition_inv N adj A1 empty pre post a H r
          (A2, E2, a2, r2) hI1 hfc hup
        exact ih A2 E2 pre post a2 r2 res hI2 hres

theorem agentsLoop_inv (N : List Nat) (adj : Nat → List Nat)
    (hadj : ∀ i, ∀ x ∈ adj i, x ∈ N) (spg : Nat) :
    ∀ (todo done : List Nat) (attrs : Attrs) (empty r : List Nat)
      (res : List Nat × Attrs × List Nat × List Nat),
      Inv N attrs (done ++ todo) empty →
      agentsLoop adj spg todo attrs empty r = some res →
      Inv N res.2.1 (done ++ res.1) res.2.2.1 := by
  intro todo
  induction todo with
  | nil =>
    intro done attrs empty r res hI hres
    unfold agentsLoop at hres
    cases hres
    exact hI
  | cons a rest ih =>
    intro done attrs empty r res hI hres
    unfold agentsLoop at hres
    have hI0 : Inv N (setScore attrs a 0) (done ++ a :: rest) empty :=
      Inv_setScore N attrs _ empty a 0 hI
    cases hss : subSteps adj spg (setScore attrs a 0) empty a r with
    | none => rw [hss] at hres; cases hres
    | some v =>
      obtain ⟨A1, E1, a1, r1⟩ := v
      rw [hss] at hres
      dsimp only at hres
      have hI1 := subSteps_inv N adj hadj spg (setScore attrs a 0) empty done
        rest a r (A1, E1, a1, r1) hI0 hss
      cases hal : agentsLoop adj spg rest A1 E1 r1 with
      | none => rw [hal] at hres; cases hres
      | some w =>
        obtain ⟨rest1, A2, E2, r2⟩ := w
        rw [hal] at hres
        cases hres
        have hI2 := ih (done ++ [a1]) A1 E1 r1 (rest1, A2, E2, r2)
          (by rw [List.append_assoc, List.singleton_append]; exact hI1) hal
        rw [List.append_assoc, List.singleton_append] at hI2
        exact hI2

theorem Inv_perm (N : List Nat) (attrs : Attrs) (ag ag' em : List Nat)
    (hp : ag.Perm ag') (hI : Inv N attrs ag em) : Inv N attrs ag' em := by
  refine ⟨hp.nodup_iff.mp hI.agents_nodup, hI.empty_nodup, ?_, ?_, ?_,
    hI.strat_zero, hI.strat_range⟩
  · rintro x ⟨hx1, hx2⟩
    exact hI.disj x ⟨hp.mem_iff.mpr hx1, hx2⟩
  · intro x
    rw [hI.union x]
    constructor
    · rintro (hh | hh)
      · exact Or.inl (hp.mem_iff.mp hh)
      · exact Or.inr hh
    · rintro (hh | hh)
      · exact Or.inl (hp.mem_iff.mpr hh)
      · exact Or.inr hh
  · intro x hx
    exact hI.strat_pos x (hp.mem_iff.mpr hx)

end FollowFlee

namespace FollowFlee

theorem selectEmptyCell_mem (empty r : List Nat) (tgt : Nat) (r1 : List Nat)
    (h : selectEmptyCell empty r = some (tgt, r1)) : tgt ∈ empty := by
  unfold selectEmptyCell at h
  by_cases he : empty.isEmpty
  · rw [if_pos he] at h
    cases h
  · rw [if_neg he] at h
    injection h with hp
    injection hp with h1 h2
    subst h1
    have hlen : 0 < empty.length := by
      cases empty
      · simp at he
      · simp
    have hidx : r.headD 0 % empty.length < empty.length := Nat.mod_lt _ hlen
    rw [List.getD_eq_getElem _ _ hidx]
    exact List.getElem_mem hidx

theorem nodup_append_singleton (T : List Nat) (t : Nat) (hnd : T.Nodup)
    (ht : t ∉ T) : (T ++ [t]).Nodup := by
  apply List.Nodup.append hnd (List.nodup_singleton t)
  intro x hx hxt
  rw [List.mem_singleton] at hxt
  subst hxt
  exact ht hx

theorem not_mem_append_singleton {T : List Nat} {t x : Nat} :
    x ∉ T ++ [t] ↔ x ∉ T ∧ x ≠ t := by
  constructor
  · intro h
    constructor
    · exact fun hx => h (List.mem_append.mpr (Or.inl hx))
    · intro hx
      exact h (List.mem_append.mpr (Or.inr (List.mem_singleton.mpr hx)))
  · rintro ⟨h1, h2⟩ hm
    rcases List.mem_append.mp hm with hh | hh
    · exact h1 hh
    · rw [List.mem_singleton] at hh
      exact h2 hh

theorem cloneLoopS_inv (N A E0 V : List Nat)
    (hA : A.Nodup) (hAE : ∀ x, ¬(x ∈ A ∧ x ∈ E0)) (hVA : ∀ x ∈ V, x ∈ A) :
    ∀ (j i : Nat) (T : List Nat) (attrs : Attrs) (empty r : List Nat)
      (res : List Nat × Attrs × List Nat × List Nat),
      i = T.length → i + j ≤ A.length →
      (∀ x ∈ T, x ∈ E0 ∨ x ∈ V) → T.Nodup →
      empty.Nodup →
      (∀ x, x ∈ empty ↔ ((x ∈ E0 ∨ x ∈ V) ∧ x ∉ T)) →
      (∀ x ∈ A ++ T, 0 < (attrs x).strategy) →
      (∀ x, (attrs x).strategy = 0 ∨ (attrs x).strategy = 1 ∨
        (attrs x).strategy = 2) →
      cloneLoopS j i (A ++ T) attrs empty r = some res →
      ∃ T2 : List Nat,
        res.1 = A ++ T2 ∧ T2.length = T.length + j ∧ T2.Nodup ∧
        (∀ x ∈ T2, x ∈ E0 ∨ x ∈ V) ∧
        res.2.2.1.Nodup ∧
        (∀ x, x ∈ res.2.2.1 ↔ ((x ∈ E0 ∨ x ∈ V) ∧ x ∉ T2)) ∧
        (∀ x ∈ A ++ T2, 0 < (res.2.1 x).strategy) ∧
        (∀ x, (res.2.1 x).strategy = 0 ∨ (res.2.1 x).strategy = 1 ∨
          (res.2.1 x).strategy = 2) := by
  intro j
  induction j with
  | zero =>
    intro i T attrs empty r res hiT hij hT_sub hT_nd hE_nd hE_mem hpos hrange hres
    unfold cloneLoopS at hres
    cases hres
    exact ⟨T, rfl, rfl, hT_nd, hT_sub, hE_nd, hE_mem, hpos, hrange⟩
  | succ j ih =>
    intro i T attrs empty r res hiT hij hT_sub hT_nd hE_nd hE_mem hpos hrange hres
    unfold cloneLoopS at hres
    cases hsel : selectEmptyCell empty r with
    | none => rw [hsel] at hres; cases hres
    | some v =>
      obtain ⟨tgt, r1⟩ := v
      rw [hsel] at hres
      dsimp only at hres
      have htgtE : tgt ∈ empty := selectEmptyCell_mem empty r tgt r1 hsel
      have htgtF := (hE_mem tgt).mp htgtE
      -- the clone source is the agent at position i of the unchanged vector
      have hiA : i < A.length := by omega
      have hsrc : ((A ++ T) ++ [tgt]).getD i 0 = A.getD i 0 := by
        rw [List.getD_append _ _ _ _ (by
          rw [List.length_append]
          omega)]
        rw [List.getD_append _ _ _ _ hiA]
      have hsrcA : A.getD i 0 ∈ A := by
        rw [List.getD_eq_getElem _ _ hiA]
        exact List.getElem_mem hiA
      have hsrcAT : A.getD i 0 ∈ A ++ T := List.mem_append.mpr (Or.inl hsrcA)
      rw [hsrc] at hres
      have hres' : cloneLoopS j (i + 1) (A ++ (T ++ [tgt]))
          (copyAttrs attrs (A.getD i 0) tgt) (empty.erase tgt) r1 = some res := by
        rw [← List.append_assoc]
        exact hres
      have hcopy : ∀ x, (copyAttrs attrs (A.getD i 0) tgt) x
          = if x = tgt then attrs (A.getD i 0) else attrs x := fun x => rfl
      obtain ⟨T2, hres1, hlen2, hnd2, hsub2, hEnd2, hEmem2, hpos2, hrange2⟩ :=
        ih (i + 1) (T ++ [tgt]) (copyAttrs attrs (A.getD i 0) tgt)
          (empty.erase tgt) r1 res
          (by rw [List.length_append, List.length_singleton]; omega)
          (by omega)
          (by
            intro x hx
            rcases List.mem_append.mp hx with hh | hh
            · exact hT_sub x hh
            · rw [List.mem_singleton] at hh
              subst hh
              exact htgtF.1)
          (nodup_append_singleton T tgt hT_nd htgtF.2)
          (hE_nd.erase tgt)
          (by
            intro x
            rw [hE_nd.mem_erase_iff, hE_mem x, not_mem_append_singleton]
            constructor
            · rintro ⟨hxt, hEV, hT⟩
              exact ⟨hEV, hT, hxt⟩
            · rintro ⟨hEV, hT, hxt⟩
              exact ⟨hxt, hEV, hT⟩)
          (by
            intro x hx
            rw [hcopy x]
            by_cases hxt : x = tgt
            · rw [if_pos hxt]
              exact hpos _ hsrcAT
            · rw [if_neg hxt]
              apply hpos
              rcases List.mem_append.mp hx with hh | hh
              · exact List.mem_append.mpr (Or.inl hh)
              · rcases List.mem_append.mp hh with hh2 | hh2
                · exact List.mem_append.mpr (Or.inr hh2)
                · rw [List.mem_singleton] at hh2
                  exact absurd hh2 hxt)
          (by
            intro x
            rw [hcopy x]
            by_cases hxt : x = tgt
            · rw [if_pos hxt]
              exact hrange _
            · rw [if_neg hxt]
              exact hrange x)
          hres'
      rw [List.length_append, List.length_singleton] at hlen2
      exact ⟨T2, hres1, by omega, hnd2, hsub2, hEnd2, hEmem2, hpos2, hrange2⟩

end FollowFlee

namespace FollowFlee

theorem cloneLoopN_inv (N : List Nat) (adj : Nat → List Nat)
    (hadj : ∀ p, ∀ x ∈ adj p, x ∈ N) (A E0 V : List Nat)
    (hA : A.Nodup) (hAE : ∀ x, ¬(x ∈ A ∧ x ∈ E0)) (hVA : ∀ x ∈ V, x ∈ A) :
    ∀ (j i : Nat) (T : List Nat) (attrs : Attrs) (empty r : List Nat)
      (res : List Nat × Attrs × List Nat × List Nat),
      i = T.length → i + j ≤ A.length →
      (∀ x ∈ T, x ∈ E0 ∨ x ∈ V) → T.Nodup →
      empty.Nodup →
      (∀ x, x ∈ empty ↔ ((x ∈ E0 ∨ x ∈ V) ∧ x ∉ T)) →
      (∀ x ∈ A ++ T, 0 < (attrs x).strategy) →
      (∀ x, (attrs x).strategy = 0 ∨ (attrs x).strategy = 1 ∨
        (attrs x).strategy = 2) →
      (∀ x ∈ N, ((attrs x).strategy = 0 ↔ (x ∈ E0 ∧ x ∉ T))) →
      cloneLoopN adj j i (A ++ T) attrs empty r = some res →
      ∃ T2 : List Nat,
        res.1 = A ++ T2 ∧ T2.length = T.length + j ∧ T2.Nodup ∧
        (∀ x ∈ T2, x ∈ E0 ∨ x ∈ V) ∧
        res.2.2.1.Nodup ∧
        (∀ x, x ∈ res.2.2.1 ↔ ((x ∈ E0 ∨ x ∈ V) ∧ x ∉ T2)) ∧
        (∀ x ∈ A ++ T2, 0 < (res.2.1 x).strategy) ∧
        (∀ x, (res.2.1 x).strategy = 0 ∨ (res.2.1 x).strategy = 1 ∨
          (res.2.1 x).strategy = 2) := by
  intro j
  induction j with
  | zero =>
    intro i T attrs empty r res hiT hij hT_sub hT_nd hE_nd hE_mem hpos hrange
      hziff hres
    unfold cloneLoopN at hres
    cases hres
    exact ⟨T, rfl, rfl, hT_nd, hT_sub, hE_nd, hE_mem, hpos, hrange⟩
  | succ j ih =>
    intro i T attrs empty r res hiT hij hT_sub hT_nd hE_nd hE_mem hpos hrange
      hziff hres
    unfold cloneLoopN at hres
    dsimp only at hres
    have hiA : i < A.length := by omega
    have hpar : (A ++ T).getD i 0 = A.getD i 0 :=
      List.getD_append _ _ _ _ hiA
    rw [hpar] at hres
    have hsrcA : A.getD i 0 ∈ A := by
      rw [List.getD_eq_getElem _ _ hiA]
      exact List.getElem_mem hiA
    have hsrcAT : A.getD i 0 ∈ A ++ T := List.mem_append.mpr (Or.inl hsrcA)
    cases hsel : (if ((adj (A.getD i 0)).filter
        (fun nb => (attrs nb).strategy = 0)).isEmpty then selectEmptyCell empty r
      else some ((((adj (A.getD i 0)).filter
          (fun nb => (attrs nb).strategy = 0)).getD
            (r.headD 0 % ((adj (A.getD i 0)).filter
              (fun nb => (attrs nb).strategy = 0)).length) 0), r.tail)) with
    | none => rw [hsel] at hres; cases hres
    | some v =>
      obtain ⟨tgt, r1⟩ := v
      rw [hsel] at hres
      dsimp only at hres
      have htgtF : tgt ∈ empty ∧ (tgt ∈ E0 ∨ tgt ∈ V) ∧ tgt ∉ T := by
        by_cases hfe : ((adj (A.getD i 0)).filter
            (fun nb => (attrs nb).strategy = 0)).isEmpty
        · rw [if_pos hfe] at hsel
          have hm := selectEmptyCell_mem empty r tgt r1 hsel
          have h2 := (hE_mem tgt).mp hm
          exact ⟨hm, h2.1, h2.2⟩
        · rw [if_neg hfe] at hsel
          injection hsel with hp
          injection hp with h1 h2
          have hne : ((adj (A.getD i 0)).filter
              (fun nb => decide ((attrs nb).strategy = 0))) ≠ [] := by
            intro hh
            rw [hh] at hfe
            exact hfe rfl
          have hflen := List.length_pos.mpr hne
          have hidx : r.headD 0 % ((adj (A.getD i 0)).filter
                (fun nb => decide ((attrs nb).strategy = 0))).length
              < ((adj (A.getD i 0)).filter
                (fun nb => decide ((attrs nb).strategy = 0))).length :=
            Nat.mod_lt _ hflen
          have hmemf : tgt ∈ (adj (A.getD i 0)).filter
              (fun nb => decide ((attrs nb).strategy = 0)) := by
            rw [← h1, List.getD_eq_getElem _ _ hidx]
            exact List.getElem_mem hidx
          have hmf := List.mem_filter.mp hmemf
          have hzero : (attrs tgt).strategy = 0 := of_decide_eq_true hmf.2
          have htN : tgt ∈ N := hadj _ tgt hmf.1
          have hiff := (hziff tgt htN).mp hzero
          exact ⟨(hE_mem tgt).mpr ⟨Or.inl hiff.1, hiff.2⟩, Or.inl hiff.1, hiff.2⟩
      have hres' : cloneLoopN adj j (i + 1) (A ++ (T ++ [tgt]))
          (copyAttrs attrs (A.getD i 0) tgt) (empty.erase tgt) r1 = some res := by
        rw [← List.append_assoc]
        exact hres
      have hcopy : ∀ x, (copyAttrs attrs (A.getD i 0) tgt) x
          = if x = tgt then attrs (A.getD i 0) else attrs x := fun x => rfl
      obtain ⟨T2, hres1, hlen2, hnd2, hsub2, hEnd2, hEmem2, hpos2, hrange2⟩ :=
        ih (i + 1) (T ++ [tgt]) (copyAttrs attrs (A.getD i 0) tgt)
          (empty.erase tgt) r1 res
          (by rw [List.length_append, List.length_singleton]; omega)
          (by omega)
          (by
            intro x hx
            rcases List.mem_append.mp hx with hh | hh
            · exact hT_sub x hh
            · rw [List.mem_singleton] at hh
              subst hh
              exact htgtF.2.1)
          (nodup_append_singleton T tgt hT_nd htgtF.2.2)
          (hE_nd.erase tgt)
          (by
            intro x
            rw [hE_nd.mem_erase_iff, hE_mem x, not_mem_append_singleton]
            constructor
            · rintro ⟨hxt, hEV, hT⟩
              exact ⟨hEV, hT, hxt⟩
            · rintro ⟨hEV, hT, hxt⟩
              exact ⟨hxt, hEV, hT⟩)
          (by
            intro x hx
            rw [hcopy x]
            by_cases hxt : x = tgt
            · rw [if_pos hxt]
              exact hpos _ hsrcAT
            · rw [if_neg hxt]
              apply hpos
              rcases List.mem_append.mp hx with hh | hh
              · exact List.mem_append.mpr (Or.inl hh)
              · rcases List.mem_append.mp hh with hh2 | hh2
                · exact List.mem_append.mpr (Or.inr hh2)
                · rw [List.mem_singleton] at hh2
                  exact absurd hh2 hxt)
          (by
            intro x
            rw [hcopy x]
            by_cases hxt : x = tgt
            · rw [if_pos hxt]
              exact hrange _
            · rw [if_neg hxt]
              exact hrange x)
          (by
            intro x hxN
            rw [hcopy x]
            by_cases hxt : x = tgt
            · rw [if_pos hxt]
              constructor
              · intro h0
                have := hpos _ hsrcAT
                omega
              · rintro ⟨_, hTx⟩
                exact absurd (List.mem_append.mpr
                  (Or.inr (List.mem_singleton.mpr hxt))) hTx
            · rw [if_neg hxt]
              rw [hziff x hxN, not_mem_append_singleton]
              constructor
              · rintro ⟨hE0x, hTx⟩
                exact ⟨hE0x, hTx, hxt⟩
              · rintro ⟨hE0x, hTx, _⟩
                exact ⟨hE0x, hTx⟩)
          hres'
      rw [List.length_append, List.length_singleton] at hlen2
      exact ⟨T2, hres1, by omega, hnd2, hsub2, hEnd2, hEmem2, hpos2, hrange2⟩

end FollowFlee

namespace FollowFlee

theorem vacateWorst_eq (k : Nat) (agents empty : List Nat)
    (hk : k ≤ agents.length) (hnd : agents.Nodup)
    (hfresh : ∀ x ∈ agents, x ∉ empty) :
    vacateWorst k agents empty
      = empty ++ (agents.drop (agents.length - k)).reverse := by
  unfold vacateWorst
  calc (List.range k).foldl
        (fun e i => insertCell e (agents.getD (agents.length - 1 - i) 0)) empty
      = ((List.range k).map
          (fun i => agents.getD (agents.length - 1 - i) 0)).foldl
            insertCell empty :=
        (List.foldl_map (fun i => agents.getD (agents.length - 1 - i) 0)
          insertCell (List.range k) empty).symm
    _ = ((agents.drop (agents.length - k)).reverse).foldl insertCell empty := by
        rw [vacate_map_range agents k hk]
    _ = empty ++ (agents.drop (agents.length - k)).reverse := by
        apply foldl_insertCell_fresh
        · rw [List.nodup_reverse]
          exact hnd.sublist (List.drop_sublist _ _)
        · intro x hx
          rw [List.mem_reverse] at hx
          exact hfresh x ((List.drop_sublist _ _).subset hx)

theorem eraseWindow_append (A T2 : List Nat) (k : Nat) (hlen : T2.length = k)
    (hk : k ≤ A.length) :
    eraseWindow (A ++ T2) k = A.take (A.length - k) ++ T2 := by
  unfold eraseWindow
  rw [List.length_append, hlen]
  have h1 : A.length + k - 2 * k = A.length - k := by omega
  have h2 : A.length + k - k = A.length := by omega
  rw [h1, h2]
  congr 1
  · rw [List.take_append_of_le_length (by omega)]
  · exact List.drop_left A T2

theorem simpleBD_inv (N : List Nat) (k : Nat) (agents : List Nat)
    (attrs : Attrs) (empty r : List Nat)
    (res : List Nat × Attrs × List Nat × List Nat)
    (hI : Inv N attrs agents empty) (hk : k ≤ agents.length)
    (hres : simpleBD k agents attrs empty r = some res) :
    Inv N res.2.1 res.1 res.2.2.1 := by
  have hfresh : ∀ x ∈ agents, x ∉ empty := fun x hx hmem => hI.disj x ⟨hx, hmem⟩
  have hvac := vacateWorst_eq k agents empty hk hI.agents_nodup hfresh
  unfold simpleBD at hres
  dsimp only at hres
  rw [hvac] at hres
  have hVnd : ((agents.drop (agents.length - k)).reverse).Nodup :=
    List.nodup_reverse.mpr (hI.agents_nodup.sublist (List.drop_sublist _ _))
  have hVA : ∀ x ∈ (agents.drop (agents.length - k)).reverse, x ∈ agents := by
    intro x hx
    rw [List.mem_reverse] at hx
    exact (List.drop_sublist _ _).subset hx
  have hVmem : ∀ x, x ∈ (agents.drop (agents.length - k)).reverse ↔
      x ∈ agents.drop (agents.length - k) := fun x => List.mem_reverse
  have hEVnd : (empty ++ (agents.drop (agents.length - k)).reverse).Nodup := by
    apply List.Nodup.append hI.empty_nodup hVnd
    intro x hx hxv
    exact hfresh x (hVA x hxv) hx
  cases hcl : cloneLoopS k 0 agents attrs
      (empty ++ (agents.drop (agents.length - k)).reverse) r with
  | none => rw [hcl] at hres; cases hres
  | some mid =>
    obtain ⟨ag2, at2, em2, r2⟩ := mid
    rw [hcl] at hres
    dsimp only at hres
    have hcl' : cloneLoopS k 0 (agents ++ []) attrs
        (empty ++ (agents.drop (agents.length - k)).reverse) r
        = some (ag2, at2, em2, r2) := by
      rw [List.append_nil]
      exact hcl
    obtain ⟨T2, hag2, hlen2, hnd2, hsub2, hEnd2, hEmem2, hpos2, hrange2⟩ :=
      cloneLoopS_inv N agents empty (agents.drop (agents.length - k)).reverse
        hI.agents_nodup hI.disj hVA
        k 0 [] attrs (empty ++ (agents.drop (agents.length - k)).reverse) r
        (ag2, at2, em2, r2)
        rfl (by omega) (by intro x hx; cases hx) List.nodup_nil
        hEVnd
        (by intro x; simp [List.mem_append])
        (by rw [List.append_nil]; exact hI.strat_pos)
        hI.strat_range
        hcl'
    simp only [List.length_nil, Nat.zero_add] at hlen2
    cases hres
    dsimp only at hag2 hEnd2 hEmem2 hpos2 hrange2 ⊢
    rw [hag2, eraseWindow_append agents T2 k hlen2 hk]
    have htdsplit := List.take_append_drop (agents.length - k) agents
    have hnddisj : ∀ x ∈ agents.take (agents.length - k),
        x ∉ agents.drop (agents.length - k) := by
      have hnd := hI.agents_nodup
      rw [← htdsplit] at hnd
      exact fun x hx hx' => (List.nodup_append.mp hnd).2.2 hx hx'
    have htakeA : ∀ x ∈ agents.take (agents.length - k), x ∈ agents :=
      fun x hx => (List.take_sublist _ _).subset hx
    have htakend : (agents.take (agents.length - k)).Nodup :=
      hI.agents_nodup.sublist (List.take_sublist _ _)
    have hT2notTake : ∀ x ∈ T2, x ∉ agents.take (agents.length - k) := by
      intro x hx hxt
      rcases hsub2 x hx with hE | hV
      · exact hfresh x (htakeA x hxt) hE
      · exact hnddisj x hxt ((hVmem x).mp hV)
    refine ⟨?_, hEnd2, ?_, ?_, ?_, ?_, ?_⟩
    · apply List.Nodup.append htakend hnd2
      intro x hx hxT
      exact hT2notTake x hxT hx
    · rintro x ⟨hxA, hxE⟩
      have hmem2 := (hEmem2 x).mp hxE
      rcases List.mem_append.mp hxA with hx | hx
      · rcases hmem2.1 with hE | hV
        · exact hfresh x (htakeA x hx) hE
        · exact hnddisj x hx ((hVmem x).mp hV)
      · exact hmem2.2 hx
    · intro x
      rw [hI.union x]
      constructor
      · rintro (hx | hx)
        · rw [← htdsplit] at hx
          rcases List.mem_append.mp hx with hx | hx
          · exact Or.inl (List.mem_append.mpr (Or.inl hx))
          · by_cases hxT : x ∈ T2
            · exact Or.inl (List.mem_append.mpr (Or.inr hxT))
            · exact Or.inr ((hEmem2 x).mpr ⟨Or.inr ((hVmem x).mpr hx), hxT⟩)
        · by_cases hxT : x ∈ T2
          · exact Or.inl (List.mem_append.mpr (Or.inr hxT))
          · exact Or.inr ((hEmem2 x).mpr ⟨Or.inl hx, hxT⟩)
      · rintro (hx | hx)
        · rcases List.mem_append.mp hx with hx | hx
          · exact Or.inl (htakeA x hx)
          · rcases hsub2 x hx with hE | hV
            · exact Or.inr hE
            · exact Or.inl (hVA x hV)
        · rcases ((hEmem2 x).mp hx).1 with hE | hV
          · exact Or.inr hE
          · exact Or.inl (hVA x hV)
    · intro x hx
      have hxnotE : x ∉ em2 := by
        intro hxE
        have hmem2 := (hEmem2 x).mp hxE
        rcases List.mem_append.mp hx with hh | hh
        · rcases hmem2.1 with hE | hV
          · exact hfresh x (htakeA x hh) hE
          · exact hnddisj x hh ((hVmem x).mp hV)
        · exact hmem2.2 hh
      rw [clear_foldl_not_mem em2 at2 x hxnotE]
      apply hpos2
      rcases List.mem_append.mp hx with hh | hh
      · exact List.mem_append.mpr (Or.inl (htakeA x hh))
      · exact List.mem_append.mpr (Or.inr hh)
    · intro x hx
      rw [clear_foldl_mem em2 at2 x hx]
    · intro x
      by_cases hxE : x ∈ em2
      · rw [clear_foldl_mem em2 at2 x hxE]
        left
        rfl
      · rw [clear_foldl_not_mem em2 at2 x hxE]
        exact hrange2 x

end FollowFlee

namespace FollowFlee

theorem neighbourBD_inv (N : List Nat) (adj : Nat → List Nat)
    (hadj : ∀ p, ∀ x ∈ adj p, x ∈ N) (k : Nat) (agents : List Nat)
    (attrs : Attrs) (empty r : List Nat)
    (res : List Nat × Attrs × List Nat × List Nat)
    (hI : Inv N attrs agents empty) (hk : k ≤ agents.length)
    (hres : neighbourBD adj k agents attrs empty r = some res) :
    Inv N res.2.1 res.1 res.2.2.1 := by
  have hfresh : ∀ x ∈ agents, x ∉ empty := fun x hx hmem => hI.disj x ⟨hx, hmem⟩
  have hvac := vacateWorst_eq k agents empty hk hI.agents_nodup hfresh
  unfold neighbourBD at hres
  dsimp only at hres
  rw [hvac] at hres
  have hVnd : ((agents.drop (agents.length - k)).reverse).Nodup :=
    List.nodup_reverse.mpr (hI.agents_nodup.sublist (List.drop_sublist _ _))
  have hVA : ∀ x ∈ (agents.drop (agents.length - k)).reverse, x ∈ agents := by
    intro x hx
    rw [List.mem_reverse] at hx
    exact (List.drop_sublist _ _).subset hx
  have hVmem : ∀ x, x ∈ (agents.drop (agents.length - k)).reverse ↔
      x ∈ agents.drop (agents.length - k) := fun x => List.mem_reverse
  have hEVnd : (empty ++ (agents.drop (agents.length - k)).reverse).Nodup := by
    apply List.Nodup.append hI.empty_nodup hVnd
    intro x hx hxv
    exact hfresh x (hVA x hxv) hx
  cases hcl : cloneLoopN adj k 0 agents attrs
      (empty ++ (agents.drop (agents.length - k)).reverse) r with
  | none => rw [hcl] at hres; cases hres
  | some mid =>
    obtain ⟨ag2, at2, em2, r2⟩ := mid
    rw [hcl] at hres
    dsimp only at hres
    have hcl' : cloneLoopN adj k 0 (agents ++ []) attrs
        (empty ++ (agents.drop (agents.length - k)).reverse) r
        = some (ag2, at2, em2, r2) := by
      rw [List.append_nil]
      exact hcl
    obtain ⟨T2, hag2, hlen2, hnd2, hsub2, hEnd2, hEmem2, hpos2, hrange2⟩ :=
      cloneLoopN_inv N adj hadj agents empty
        (agents.drop (agents.length - k)).reverse
        hI.agents_nodup hI.disj hVA
        k 0 [] attrs (empty ++ (agents.drop (agents.length - k)).reverse) r
        (ag2, at2, em2, r2)
        rfl (by omega) (by intro x hx; cases hx) List.nodup_nil
        hEVnd
        (by intro x; simp [List.mem_append])
        (by rw [List.append_nil]; exact hI.strat_pos)
        hI.strat_range
        (by
          intro x hxN
          simp only [List.not_mem_nil, not_false_iff, and_true]
          constructor
          · intro h0
            rcases (hI.union x).mp hxN with hag | hem
            · have := hI.strat_pos x hag
              omega
            · exact hem
          · exact hI.strat_zero x)
        hcl'
    simp only [List.length_nil, Nat.zero_add] at hlen2
    cases hres
    dsimp only at hag2 hEnd2 hEmem2 hpos2 hrange2 ⊢
    rw [hag2, eraseWindow_append agents T2 k hlen2 hk]
    have htdsplit := List.take_append_drop (agents.length - k) agents
    have hnddisj : ∀ x ∈ agents.take (agents.length - k),
        x ∉ agents.drop (agents.length - k) := by
      have hnd := hI.agents_nodup
      rw [← htdsplit] at hnd
      exact fun x hx hx' => (List.nodup_append.mp hnd).2.2 hx hx'
    have htakeA : ∀ x ∈ agents.take (agents.length - k), x ∈ agents :=
      fun x hx => (List.take_sublist _ _).subset hx
    have htakend : (agents.take (agents.length - k)).Nodup :=
      hI.agents_nodup.sublist (List.take_sublist _ _)
    have hT2notTake : ∀ x ∈ T2, x ∉ agents.take (agents.length - k) := by
      intro x hx hxt
      rcases hsub2 x hx with hE | hV
      · exact hfresh x (htakeA x hxt) hE
      · exact hnddisj x hxt ((hVmem x).mp hV)
    refine ⟨?_, hEnd2, ?_, ?_, ?_, ?_, ?_⟩
    · apply List.Nodup.append htakend hnd2
      intro x hx hxT
      exact hT2notTake x hxT hx
    · rintro x ⟨hxA, hxE⟩
      have hmem2 := (hEmem2 x).mp hxE
      rcases List.mem_append.mp hxA with hx | hx
      · rcases hmem2.1 with hE | hV
        · exact hfresh x (htakeA x hx) hE
        · exact hnddisj x hx ((hVmem x).mp hV)
      · exact hmem2.2 hx
    · intro x
      rw [hI.union x]
      constructor
      · rintro (hx | hx)
        · rw [← htdsplit] at hx
          rcases List.mem_append.mp hx with hx | hx
          · exact Or.inl (List.mem_append.mpr (Or.inl hx))
          · by_cases hxT : x ∈ T2
            · exact Or.inl (List.mem_append.mpr (Or.inr hxT))
            · exact Or.inr ((hEmem2 x).mpr ⟨Or.inr ((hVmem x).mpr hx), hxT⟩)
        · by_cases hxT : x ∈ T2
          · exact Or.inl (List.mem_append.mpr (Or.inr hxT))
          · exact Or.inr ((hEmem2 x).mpr ⟨Or.inl hx, hxT⟩)
      · rintro (hx | hx)
        · rcases List.mem_append.mp hx with hx | hx
          · exact Or.inl (htakeA x hx)
          · rcases hsub2 x hx with hE | hV
            · exact Or.inr hE
            · exact Or.inl (hVA x hV)
        · rcases ((hEmem2 x).mp hx).1 with hE | hV
          · exact Or.inr hE
          · exact Or.inl (hVA x hV)
    · intro x hx
      have hxnotE : x ∉ em2 := by
        intro hxE
        have hmem2 := (hEmem2 x).mp hxE
        rcases List.mem_append.mp hx with hh | hh
        · rcases hmem2.1 with hE | hV
          · exact hfresh x (htakeA x hh) hE
          · exact hnddisj x hh ((hVmem x).mp hV)
        · exact hmem2.2 hh
      rw [clear_foldl_not_mem em2 at2 x hxnotE]
      apply hpos2
      rcases List.mem_append.mp hx with hh | hh
      · exact List.mem_append.mpr (Or.inl (htakeA x hh))
      · exact List.mem_append.mpr (Or.inr hh)
    · intro x hx
      rw [clear_foldl_mem em2 at2 x hx]
    · intro x
      by_cases hxE : x ∈ em2
      · rw [clear_foldl_mem em2 at2 x hxE]
        left
        rfl
      · rw [clear_foldl_not_mem em2 at2 x hxE]
        exact hrange2 x

end FollowFlee

namespace FollowFlee

theorem algorithmStep_inv (N : List Nat) (adj : Nat → List Nat)
    (hadj : ∀ i, ∀ x ∈ adj i, x ∈ N) (spg : Nat) (repRate : ℚ)
    (repMode : RepMode) (st : St) (r : List Nat) (res : St × List Nat)
    (hrr : repRate ≤ 1)
    (hI : Inv N st.attrs st.agents st.empty)
    (hres : algorithmStep adj spg repRate repMode st r = some res) :
    Inv N res.1.attrs res.1.agents res.1.empty := by
  unfold algorithmStep at hres
  by_cases hnil : st.agents = []
  · rw [if_pos hnil] at hres
    cases hres
    exact hI
  · rw [if_neg hnil] at hres
    dsimp only at hres
    have hperm1 : (shuffle (sortById st.agents) r).1.Perm st.agents :=
      (shuffle_perm (sortById st.agents).length (sortById st.agents) r
        rfl).trans (List.perm_insertionSort _ _)
    have hIsh : Inv N st.attrs (shuffle (sortById st.agents) r).1 st.empty :=
      Inv_perm N st.attrs st.agents _ st.empty hperm1.symm hI
    cases hal : agentsLoop adj spg (shuffle (sortById st.agents) r).1 st.attrs
        st.empty (shuffle (sortById st.agents) r).2 with
    | none => rw [hal] at hres; cases hres
    | some v =>
      obtain ⟨ag1, A1, E1, r1⟩ := v
      rw [hal] at hres
      dsimp only at hres
      have hI1 := agentsLoop_inv N adj hadj spg
        (shuffle (sortById st.agents) r).1 [] st.attrs st.empty
        (shuffle (sortById st.agents) r).2 (ag1, A1, E1, r1)
        (by rw [List.nil_append]; exact hIsh) hal
      rw [List.nil_append] at hI1
      dsimp only at hI1
      have hfloor : ⌊(ag1.length : ℚ) * repRate⌋ ≤ (ag1.length : Int) := by
        calc ⌊(ag1.length : ℚ) * repRate⌋ ≤ ⌊(ag1.length : ℚ)⌋ := by
              apply Int.floor_le_floor
              exact mul_le_of_le_one_right (Nat.cast_nonneg _) hrr
          _ = (ag1.length : Int) := Int.floor_natCast _
      have hk : (⌊(ag1.length : ℚ) * repRate⌋).toNat ≤ ag1.length :=
        Int.toNat_le.mpr hfloor
      by_cases hpos : (⌊(ag1.length : ℚ) * repRate⌋).toNat > 0
      · rw [if_pos hpos] at hres
        cases repMode with
        | SimpleBD =>
          cases hbd : simpleBD (⌊(ag1.length : ℚ) * repRate⌋).toNat ag1 A1 E1 r1
            with
          | none => rw [hbd] at hres; cases hres
          | some w =>
            obtain ⟨ag3, A3, E3, r3⟩ := w
            rw [hbd] at hres
            cases hres
            exact simpleBD_inv N _ ag1 A1 E1 r1 (ag3, A3, E3, r3) hI1 hk hbd
        | NeighbourBD =>
          cases hbd : neighbourBD adj (⌊(ag1.length : ℚ) * repRate⌋).toNat ag1
            A1 E1 r1 with
          | none => rw [hbd] at hres; cases hres
          | some w =>
            obtain ⟨ag3, A3, E3, r3⟩ := w
            rw [hbd] at hres
            cases hres
            exact neighbourBD_inv N adj hadj _ ag1 A1 E1 r1 (ag3, A3, E3, r3)
              hI1 hk hbd
        | Evolutionary => cases hres
      · rw [if_neg hpos] at hres
        cases hres
        exact hI1

/-- **C3.** The agent vector and the empty-cell map partition the node set —
both duplicate-free, disjoint, their union the full node set, agents with
positive strategy, empty cells with strategy 0 — and this invariant (`Inv`)
is preserved by every individual `move` (with the vector entry rebound to
the target cell), by each of the two replacement strategies
(`agentsToReplace ≤ |agents|`), and by a whole generation (`algorithmStep`,
for any `repRate ≤ 1`), so it holds at every generation boundary; under the
invariant a node of the node set is in the agent vector exactly when its
strategy attribute is positive (last conjunct). -/
theorem partition_invariant_preserved :
    (∀ (N : List Nat) (attrs : Attrs) (empty pre post : List Nat) (a tgt : Nat),
      Inv N attrs (pre ++ a :: post) empty →
      (tgt = a ∨ tgt ∈ empty) →
      Inv N (move attrs empty a tgt).1
        (pre ++ (move attrs empty a tgt).2.2 :: post)
        (move attrs empty a tgt).2.1) ∧
    (∀ (N : List Nat) (k : Nat) (agents : List Nat) (attrs : Attrs)
       (empty r : List Nat) (res : List Nat × Attrs × List Nat × List Nat),
      Inv N attrs agents empty → k ≤ agents.length →
      simpleBD k agents attrs empty r = some res →
      Inv N res.2.1 res.1 res.2.2.1) ∧
    (∀ (N : List Nat) (adj : Nat → List Nat),
      (∀ p, ∀ x ∈ adj p, x ∈ N) →
      ∀ (k : Nat) (agents : List Nat) (attrs : Attrs) (empty r : List Nat)
        (res : List Nat × Attrs × List Nat × List Nat),
      Inv N attrs agents empty → k ≤ agents.length →
      neighbourBD adj k agents attrs empty r = some res →
      Inv N res.2.1 res.1 res.2.2.1) ∧
    (∀ (N : List Nat) (adj : Nat → List Nat),
      (∀ i, ∀ x ∈ adj i, x ∈ N) →
      ∀ (spg : Nat) (repRate : ℚ) (repMode : RepMode) (st : St) (r : List Nat)
        (res : St × List Nat),
      repRate ≤ 1 →
      Inv N st.attrs st.agents st.empty →
      algorithmStep adj spg repRate repMode st r = some res →
      Inv N res.1.attrs res.1.agents res.1.empty) ∧
    (∀ (N : List Nat) (attrs : Attrs) (agents empty : List Nat),
      Inv N attrs agents empty →
      ∀ x ∈ N, (x ∈ agents ↔ 0 < (attrs x).strategy)) := by
  refine ⟨?_, ?_, ?_, ?_, ?_⟩
  · intro N attrs empty pre post a tgt hI htgt
    exact move_inv N attrs empty pre post a tgt hI htgt
  · intro N k agents attrs empty r res hI hk hres
    exact simpleBD_inv N k agents attrs empty r res hI hk hres
  · intro N adj hadj k agents attrs empty r res hI hk hres
    exact neighbourBD_inv N adj hadj k agents attrs empty r res hI hk hres
  · intro N adj hadj spg repRate repMode st r res hrr hI hres
    exact algorithmStep_inv N adj hadj spg repRate repMode st r res hrr hI hres
  · intro N attrs agents empty hI x hxN
    constructor
    · exact hI.strat_pos x
    · intro hpos
      rcases (hI.union x).mp hxN with hag | hem
      · exact hag
      · have := hI.strat_zero x hem
        omega

/-- **C3 witness.** On the 4-node world with agents `[0, 1, 2]` and empty
cell `[3]`, the partition invariant holds after moving agent 0 to the empty
cell 3, and node 0 of the node set is an agent exactly because its strategy
is positive. -/
theorem partition_invariant_preserved_witness :
    Inv [0, 1, 2, 3] (move exAttrsB [3] 0 3).1
      ([] ++ (move exAttrsB [3] 0 3).2.2 :: [1, 2])
      (move exAttrsB [3] 0 3).2.1 ∧
    (0 ∈ [0, 1, 2] ↔ 0 < (exAttrsB 0).strategy) := by
  have hInv : Inv [0, 1, 2, 3] exAttrsB [0, 1, 2] [3] := by
    refine ⟨by decide, by decide, ?_, ?_, by decide, by decide, ?_⟩
    · rintro x ⟨h1, h2⟩
      rw [List.mem_singleton] at h2
      subst h2
      simp at h1
    · intro x
      simp only [List.mem_cons, List.mem_singleton, List.not_mem_nil, or_false]
      tauto
    · intro x
      unfold exAttrsB
      split_ifs <;> norm_num
  constructor
  · exact partition_invariant_preserved.1 [0, 1, 2, 3] exAttrsB [3] [] [1, 2]
      0 3 hInv (Or.inr (by decide))
  · exact partition_invariant_preserved.2.2.2.2 [0, 1, 2, 3] exAttrsB
      [0, 1, 2] [3] hInv 0 (by decide)

end FollowFlee
